import Mathlib

/-!
Verification development for the content-addressed blob store with
reference-counted garbage collection in `src-tauri/src/lib.rs`.

Rust strings are modelled as `List Char` (`RStr`), machine integers
(`i64` counts, timestamps) as `Int` (no arithmetic here can overflow an
`i64` in any reachable scenario, so wrap-around is not modelled), byte
buffers as `List Nat`, and fallible operations as `Except RStr`.
Filesystem effects are modelled by an explicit `Fs` state threaded
through the operations, with the outcome of the individual `remove_file`
/ write / image-decode calls given by a pure oracle, so that partial
I/O failure is expressible.  SQLite tables (`items`, `vault_files`) are
modelled as lists of rows; the primary-key constraints of the schema
(`items.id`, `vault_files.vault_key`) are reflected by the explicit
duplicate check in the insert model and by `Nodup` invariants.
Columns and tables that never interact with the ledger or the blob
store (collections, tags, favicons, title/description/rating columns)
are omitted from the row models.
-/

set_option maxRecDepth 8192

/-- Rust strings, modelled as lists of characters. -/
abbrev RStr := List Char

/-- The Unicode White_Space code points, as matched by Rust's
`char::is_whitespace`, which `str::trim` uses. -/
def rustIsWhitespace (c : Char) : Bool :=
  let n := c.toNat
  decide (n = 0x20 ∨ (0x9 ≤ n ∧ n ≤ 0xD) ∨ n = 0x85 ∨ n = 0xA0 ∨ n = 0x1680 ∨
    (0x2000 ≤ n ∧ n ≤ 0x200A) ∨ n = 0x2028 ∨ n = 0x2029 ∨ n = 0x202F ∨
    n = 0x205F ∨ n = 0x3000)

/-- Rust `char::is_ascii_alphanumeric`. -/
def isAsciiAlphanumeric (c : Char) : Bool :=
  let n := c.toNat
  decide ((0x30 ≤ n ∧ n ≤ 0x39) ∨ (0x41 ≤ n ∧ n ≤ 0x5A) ∨ (0x61 ≤ n ∧ n ≤ 0x7A))

/-- Rust `char::to_ascii_lowercase` (per character of `str::to_ascii_lowercase`). -/
def toAsciiLowercase (c : Char) : Char :=
  if 0x41 ≤ c.toNat ∧ c.toNat ≤ 0x5A then Char.ofNat (c.toNat + 0x20) else c

/-- Rust `str::trim_start` over the model characters. -/
def trimStart (l : RStr) : RStr := l.dropWhile rustIsWhitespace

/-- Rust `str::trim_end` over the model characters. -/
def trimEnd (l : RStr) : RStr := (l.reverse.dropWhile rustIsWhitespace).reverse

/-- Rust `str::trim`. -/
def rustTrim (l : RStr) : RStr := trimStart (trimEnd l)

/-- Model of `normalize_ext` (lib.rs:1038): trim, strip leading dots,
ascii-lowercase, then keep ascii alphanumerics; empty results map to the
sentinel extension `bin`. -/
def normalize_ext (ext : RStr) : RStr :=
  let cleaned := ((rustTrim ext).dropWhile (fun c => c = '.')).map toAsciiLowercase
  if cleaned = [] then "bin".toList
  else
    let sanitized := cleaned.filter isAsciiAlphanumeric
    if sanitized = [] then "bin".toList else sanitized

/-- Model of `build_vault_filename` (lib.rs:1174). -/
def build_vault_filename (sha256 ext : RStr) : RStr :=
  sha256 ++ ('.' :: normalize_ext ext)

/-- Index of the last occurrence of a character (Rust `str::rfind` with a
char pattern). -/
def lastIndexOf (c : Char) : RStr → Option Nat
  | [] => none
  | x :: xs =>
    match lastIndexOf c xs with
    | some i => some (i + 1)
    | none => if x = c then some 0 else none

/-- Model of `parse_vault_key` (lib.rs:1178): split the trimmed token on
the last dot; fail when there is no dot or it is at the very start or
end of the token. -/
def parse_vault_key (vault_key : RStr) : Option (RStr × RStr) :=
  let trimmed := rustTrim vault_key
  match lastIndexOf '.' trimmed with
  | none => none
  | some i =>
    if i = 0 ∨ trimmed.length - 1 ≤ i then none
    else some (trimmed.take i, normalize_ext (trimmed.drop (i + 1)))

/-- Row of the `vault_files` ledger table (schema at lib.rs:418). -/
structure VRow where
  vault_key : RStr
  vault_path : RStr
  sha256 : RStr
  ext : RStr
  size_bytes : Int
  ref_count : Int
  created_at : Int
  updated_at : Int
deriving DecidableEq, Repr

/-- SQL lookup of the ledger row with a given primary key. -/
def vlookup (ledger : List VRow) (k : RStr) : Option VRow :=
  ledger.find? (fun r => decide (r.vault_key = k))

/-- The recorded reference count of a key, zero when no row exists. -/
def refCountD (ledger : List VRow) (k : RStr) : Int :=
  ((vlookup ledger k).map VRow.ref_count).getD 0

/-- Model of `increment_vault_ref_in_tx` (lib.rs:1189): a key that is
empty after trimming is a successful no-op; an unparseable key is an
error; otherwise an upsert keyed on the raw key token (insert with
`ref_count = 1`, or `ref_count += 1` refreshing path/sha/ext/timestamp). -/
def increment_vault_ref_in_tx (ledger : List VRow) (vault_key vault_path : RStr)
    (now : Int) : Except RStr (List VRow) :=
  if rustTrim vault_key = [] then .ok ledger
  else
    match parse_vault_key vault_key with
    | none => .error ("invalid vault key: ".toList ++ vault_key)
    | some (sha, ext) =>
      match vlookup ledger vault_key with
      | some _ => .ok (ledger.map (fun r =>
          if r.vault_key = vault_key then
            { r with ref_count := r.ref_count + 1, vault_path := vault_path,
                     sha256 := sha, ext := ext, updated_at := now }
          else r))
      | none => .ok (ledger ++ [⟨vault_key, vault_path, sha, ext, 0, 1, now, now⟩])

/-- Model of `decrement_vault_ref_in_tx` (lib.rs:1225): clamp the amount
to ≥ 0, floor the stored count at zero (the SQL `CASE WHEN ref_count > by
THEN ref_count - by ELSE 0 END`), and return the stored count afterwards
(0 when no row exists).  An empty-after-trim key is a no-op returning 0. -/
def decrement_vault_ref_in_tx (ledger : List VRow) (vault_key : RStr)
    (decrement_by : Int) (now : Int) : List VRow × Int :=
  if rustTrim vault_key = [] then (ledger, 0)
  else
    let bounded := max decrement_by 0
    let updated := ledger.map (fun r =>
      if r.vault_key = vault_key then
        { r with ref_count := if bounded < r.ref_count then r.ref_count - bounded else 0,
                 updated_at := now }
      else r)
    (updated, ((vlookup updated vault_key).map VRow.ref_count).getD 0)

/-- A stored blob file: `{storage_root}/{bucket}/{filename}` where `bucket`
stands for the `YYYY/MM` month directory pair. -/
structure Blob where
  bucket : RStr
  filename : RStr
  content : List Nat
deriving DecidableEq, Repr

/-- The filesystem state the blob store touches: the storage root, its
month buckets, the blob files, and the thumbnail files (named by their
filename under the thumbs root). -/
structure Fs where
  rootExists : Bool
  buckets : List RStr
  blobs : List Blob
  thumbs : List RStr
deriving DecidableEq, Repr

/-- Pure oracle fixing the outcome of the individual fallible I/O calls:
`remove_file` on a blob path, `remove_file` on a thumbnail, the blob
write (`fs::copy` / `File::create + write_all + flush`), the
`read_image_dimensions` call at a blob path, and the decode/resize/encode
body of `generate_thumbnail_internal`. -/
structure FsOracle where
  removeBlobOk : RStr → RStr → Bool
  removeThumbOk : RStr → Bool
  writeBlobOk : RStr → RStr → Bool
  readDims : RStr × RStr → Option (Nat × Nat)
  thumbGenOk : RStr × RStr → RStr → Bool

/-- Model of `ensure_storage_root_internal` (lib.rs:1081): `create_dir_all`
on the storage root. -/
def ensure_storage_root_internal (fs : Fs) : Fs := { fs with rootExists := true }

/-- Model of `ensure_current_month_directory` (lib.rs:1160); the current
year/month pair is the `bucket` parameter. -/
def ensure_current_month_directory (fs : Fs) (bucket : RStr) : Fs :=
  { fs with buckets := if bucket ∈ fs.buckets then fs.buckets else fs.buckets ++ [bucket] }

/-- Model of `find_vault_files` (lib.rs:1392): scan every year/month
bucket and return the existing paths whose filename is the vault
filename; nothing when the storage root does not exist. -/
def find_vault_files (fs : Fs) (vault_filename : RStr) : List Blob :=
  if fs.rootExists then fs.blobs.filter (fun b => decide (b.filename = vault_filename)) else []

/-- Model of `find_existing_vault_file` (lib.rs:1434): the last match. -/
def find_existing_vault_file (fs : Fs) (vault_filename : RStr) : Option Blob :=
  (find_vault_files fs vault_filename).getLast?

/-- Effect of a successful `fs::remove_file` on a blob path. -/
def removeBlobPath (fs : Fs) (bucket filename : RStr) : Fs :=
  { fs with blobs := fs.blobs.filter (fun b => !decide (b.bucket = bucket ∧ b.filename = filename)) }

/-- Model of `thumb_filename_for_vault_key` (lib.rs:1102). -/
def thumb_filename_for_vault_key (vault_key : RStr) : Except RStr RStr :=
  if rustTrim vault_key = [] then
    .error ("cannot build thumb filename from empty vault key").toList
  else
    let sanitized := (rustTrim vault_key).filter
      (fun c => isAsciiAlphanumeric c || decide (c = '.') || decide (c = '-') || decide (c = '_'))
    if sanitized = [] then
      .error (("invalid vault key for thumb filename: ").toList ++ vault_key)
    else .ok (sanitized ++ (".webp").toList)

/-- Model of `remove_thumbnail_for_vault_key` (lib.rs:1128): `Ok false`
when the thumbnail file does not exist, `Ok true` after a successful
removal, an error when the filename cannot be built or the removal
fails. -/
def remove_thumbnail_for_vault_key (o : FsOracle) (fs : Fs) (vault_key : RStr) :
    Except RStr (Fs × Bool) :=
  match thumb_filename_for_vault_key vault_key with
  | .error e => .error e
  | .ok fname =>
    if fname ∈ fs.thumbs then
      if o.removeThumbOk fname then
        .ok ({ fs with thumbs := fs.thumbs.filter (fun t => decide (t ≠ fname)) }, true)
      else .error ("failed to remove thumbnail").toList
    else .ok (fs, false)

/-- The blob-deletion loop shared by `cleanup_zero_ref_vault_files`
(lib.rs:1355-1365) and `delete_items_with_cleanup_internal`
(lib.rs:3397-3406): try to remove every located path, remembering
whether any removal failed. -/
def remove_located_blobs (o : FsOracle) (filename : RStr) : List Blob → Fs → Fs × Bool
  | [], fs => (fs, true)
  | b :: rest, fs =>
    if o.removeBlobOk b.bucket filename then
      remove_located_blobs o filename rest (removeBlobPath fs b.bucket filename)
    else ((remove_located_blobs o filename rest fs).1, false)

/-- One row's cleanup in either sweep path: locate all blob copies of the
row's vault filename, try to remove each, try to remove the thumbnail,
and report whether every removal succeeded (a missing file counts as
removed). -/
def cleanup_vault_row (o : FsOracle) (fs : Fs) (vault_key sha256 ext : RStr) : Fs × Bool :=
  let fname := build_vault_filename sha256 ext
  let step := remove_located_blobs o fname (find_vault_files fs fname) fs
  match remove_thumbnail_for_vault_key o step.1 vault_key with
  | .ok (fs2, _) => (fs2, step.2)
  | .error _ => (step.1, false)

/-- The per-row cleanup fold of both sweep paths, accumulating the keys
whose cleanup fully succeeded (those rows get pruned afterwards). -/
def sweep_rows (o : FsOracle) : List (RStr × RStr × RStr) → Fs → List RStr → Fs × List RStr
  | [], fs, acc => (fs, acc)
  | entry :: rest, fs, acc =>
    let step := cleanup_vault_row o fs entry.1 entry.2.1 entry.2.2
    sweep_rows o rest step.1 (if step.2 then acc ++ [entry.1] else acc)

/-- Row of the `items` table (schema at lib.rs:365), restricted to the
columns that interact with the vault ledger; `id` is the primary key. -/
structure Item where
  id : RStr
  vault_key : RStr
  vault_path : RStr
deriving DecidableEq, Repr

/-- The whole modelled state: the two tables plus the filesystem. -/
structure St where
  items : List Item
  ledger : List VRow
  fs : Fs
deriving DecidableEq, Repr

/-- SQL lookup of the items row with a given primary key. -/
def ilookup (items : List Item) (item_id : RStr) : Option Item :=
  items.find? (fun i => decide (i.id = item_id))

/-- Number of live items rows whose `vault_key` equals `k`. -/
def itemCount (items : List Item) (k : RStr) : Nat :=
  (items.filter (fun i => decide (i.vault_key = k))).length

/-- The ledger-conservation invariant of claim C2 together with the
auxiliary facts its induction needs: primary-key uniqueness of both
tables, every live item's key is empty-after-trim or parseable, counts
are never negative, and for every non-empty parseable key the recorded
`ref_count` equals the number of live items rows carrying that key. -/
def DbInv (items : List Item) (ledger : List VRow) : Prop :=
  (items.map Item.id).Nodup ∧
  (ledger.map VRow.vault_key).Nodup ∧
  (∀ i ∈ items, rustTrim i.vault_key = [] ∨ (parse_vault_key i.vault_key).isSome) ∧
  (∀ r ∈ ledger, 0 ≤ r.ref_count) ∧
  (∀ k, rustTrim k ≠ [] → (parse_vault_key k).isSome →
    refCountD ledger k = (itemCount items k : Int))

/-- `DbInv` on a whole state. -/
def LedgerInv (st : St) : Prop := DbInv st.items st.ledger

/-- Model of `cleanup_zero_ref_vault_files` (lib.rs:1320): select the
rows with `ref_count <= 0`, run the physical cleanup for each, and
delete exactly the rows whose cleanup fully succeeded. -/
def cleanup_zero_ref_vault_files (o : FsOracle) (st : St) : St :=
  let pending := st.ledger.filter (fun r => decide (r.ref_count ≤ 0))
  if pending = [] then st
  else
    let fs0 := ensure_storage_root_internal st.fs
    let swept := sweep_rows o (pending.map (fun r => (r.vault_key, r.sha256, r.ext))) fs0 []
    { st with
      fs := swept.1,
      ledger := st.ledger.filter (fun r => decide (r.vault_key ∉ swept.2)) }

/-- One step of the backfill grouping (a `HashMap` entry update in
lib.rs:1282-1287): group items with a non-empty raw `vault_key` by key,
keeping the first path and counting occurrences. -/
def addBackfillGroup (acc : List (RStr × RStr × Int)) (i : Item) : List (RStr × RStr × Int) :=
  if i.vault_key = [] then acc
  else if (acc.find? (fun g => decide (g.1 = i.vault_key))).isSome then
    acc.map (fun g => if g.1 = i.vault_key then (g.1, g.2.1, g.2.2 + 1) else g)
  else acc ++ [(i.vault_key, i.vault_path, 1)]

/-- Model of `backfill_vault_refs_if_needed` (lib.rs:1262): when the
ledger is empty, rebuild it by grouping items by key (`INSERT OR
REPLACE`), skipping unparseable keys.  The `HashMap` iteration order is
modelled as first-insertion order; the rebuilt rows are order-insensitive
because the grouped keys are distinct. -/
def backfill_vault_refs_if_needed (st : St) (now : Int) : St :=
  if st.ledger = [] then
    let groups := st.items.foldl addBackfillGroup []
    if groups = [] then st
    else
      { st with ledger := groups.foldl (fun led g =>
          match parse_vault_key g.1 with
          | none => led
          | some p =>
            (led.filter (fun r => decide (r.vault_key ≠ g.1))) ++
              [⟨g.1, g.2.1, p.1, p.2, 0, g.2.2, now, now⟩]) st.ledger }
  else st

/-- Model of `initialize_db` (lib.rs:1029): the migrations and the
default root collection touch no modelled state, so the model is the
backfill followed by the startup sweep. -/
def init_db (o : FsOracle) (st : St) (now : Int) : St :=
  cleanup_zero_ref_vault_files o (backfill_vault_refs_if_needed st now)

/-- Model of `insert_item_in_tx` (lib.rs:3134) on the modelled columns:
the row insert (failing on a duplicate primary key) followed by the
ledger increment; collection-membership and tag bookkeeping touch
neither `items`' modelled columns nor `vault_files` and are omitted. -/
def insert_item_in_tx (items : List Item) (ledger : List VRow) (input : Item)
    (now : Int) : Except RStr (List Item × List VRow) :=
  if (ilookup items input.id).isSome then
    .error ("failed to insert item row: UNIQUE constraint failed: items.id").toList
  else
    match increment_vault_ref_in_tx ledger input.vault_key input.vault_path now with
    | .error e => .error e
    | .ok ledger2 => .ok (items ++ [input], ledger2)

/-- Model of the `insert_item` command (lib.rs:3247): initialize, then
run the insert transaction; on error the transaction rolls back, leaving
the post-initialization state. -/
def insert_item (o : FsOracle) (st : St) (input : Item) (now : Int) :
    St × Except RStr Unit :=
  let st1 := init_db o st now
  match insert_item_in_tx st1.items st1.ledger input now with
  | .error e => (st1, .error e)
  | .ok p => ({ st1 with items := p.1, ledger := p.2 }, .ok ())

/-- Model of the `insert_items_batch` command (lib.rs:3264): all inserts
inside one transaction, so an error rolls back every insert of the
batch. -/
def insert_items_batch (o : FsOracle) (st : St) (inputs : List Item) (now : Int) :
    St × Except RStr Unit :=
  if inputs = [] then (st, .ok ())
  else
    let st1 := init_db o st now
    match inputs.foldlM (fun (p : List Item × List VRow) input =>
        insert_item_in_tx p.1 p.2 input now) (st1.items, st1.ledger) with
    | .error e => (st1, .error e)
    | .ok p => ({ st1 with items := p.1, ledger := p.2 }, .ok ())

/-- The per-key decrement amount of `delete_items_with_cleanup_internal`
(lib.rs:3305-3333): how many of the requested ids currently resolve to
an existing item with vault key `k`.  Requested ids are looked up before
any row is deleted, so a duplicated id is counted each time it occurs. -/
def delete_counts (items : List Item) (ids : List RStr) (k : RStr) : Int :=
  ((ids.filter (fun i => match ilookup items i with
      | some it => decide (it.vault_key = k)
      | none => false)).length : Int)

/-- The distinct vault keys collected by the pre-delete read loop
(`vault_counts_by_key`), i.e. the non-empty-after-trim keys of the
requested existing items. -/
def delete_key_list (items : List Item) (ids : List RStr) : List RStr :=
  (ids.filterMap (fun i => (ilookup items i).bind
      (fun it => if rustTrim it.vault_key = [] then none else some it.vault_key))).dedup

/-- The single SQLite transaction of `delete_items_with_cleanup_internal`
(lib.rs:3296-3386): read the requested items, delete their rows,
decrement each collected key by its collected count, and collect the
zero-ref cleanup candidates (keys whose post-decrement count is 0 with
no remaining items row, skipping unparseable keys).  The decrement fold
runs over the distinct collected keys, so each key's returned count
equals its count in the fully decremented ledger. -/
def delete_items_tx (st : St) (ids : List RStr) (now : Int) :
    St × List (RStr × RStr × RStr) × Nat :=
  let keys := delete_key_list st.items ids
  let items2 := st.items.filter (fun i => decide (i.id ∉ ids))
  let deleted := st.items.length - items2.length
  let ledger2 := keys.foldl (fun led k =>
      (decrement_vault_ref_in_tx led k (delete_counts st.items ids k) now).1) st.ledger
  let candidates := keys.filterMap (fun k =>
      if refCountD ledger2 k = 0 ∧ itemCount items2 k = 0 then
        (parse_vault_key k).map (fun p => (k, p.1, p.2))
      else none)
  ({ st with items := items2, ledger := ledger2 }, candidates, deleted)

/-- Model of `delete_items_with_cleanup_internal` (lib.rs:3286): the
transaction above, then (outside the transaction) the physical cleanup
of the candidates, then a separate prune transaction deleting exactly
the rows whose cleanup fully succeeded.  The favicon cleanup and the
returned cleanup entries touch no modelled state and are omitted. -/
def delete_items_cleanup_phase (o : FsOracle)
    (txr : St × List (RStr × RStr × RStr) × Nat) : St × Nat :=
  let fs0 := ensure_storage_root_internal txr.1.fs
  let swept := sweep_rows o txr.2.1 fs0 []
  ({ txr.1 with
      fs := swept.1,
      ledger := txr.1.ledger.filter (fun r => decide (r.vault_key ∉ swept.2)) }, txr.2.2)

def delete_items_with_cleanup_internal (o : FsOracle) (st : St) (ids : List RStr)
    (now : Int) : St × Nat :=
  if ids = [] then (st, 0)
  else delete_items_cleanup_phase o (delete_items_tx (init_db o st now) ids now)

/-- The transaction body of `finalize_item_import` (lib.rs:4218-4276):
read the item's current vault key, require a non-empty new key and path,
decrement the old key by 1 when it is non-empty and differs from the new
key, increment the new key when it differs, and update the item row. -/
def finalize_item_import_tx (items : List Item) (ledger : List VRow)
    (item_id vault_key vault_path : RStr) (now : Int) :
    Except RStr (List Item × List VRow) :=
  match ilookup items item_id with
  | none => .error ("item not found while finalizing import").toList
  | some current =>
    let next_key := rustTrim vault_key
    let next_path := rustTrim vault_path
    if next_key = [] ∨ next_path = [] then
      .error ("cannot finalize import without a vault key/path").toList
    else
      let ledger1 :=
        if rustTrim current.vault_key ≠ [] ∧ current.vault_key ≠ next_key then
          (decrement_vault_ref_in_tx ledger current.vault_key 1 now).1
        else ledger
      match (if current.vault_key ≠ next_key then
          increment_vault_ref_in_tx ledger1 next_key next_path now
        else .ok ledger1) with
      | .error e => .error e
      | .ok ledger2 =>
        .ok (items.map (fun i => if i.id = item_id then
            { i with vault_key := next_key, vault_path := next_path } else i), ledger2)

/-- Model of the `finalize_item_import` command (lib.rs:4211). -/
def finalize_item_import (o : FsOracle) (st : St) (item_id vault_key vault_path : RStr)
    (now : Int) : St × Except RStr Unit :=
  let st1 := init_db o st now
  match finalize_item_import_tx st1.items st1.ledger item_id vault_key vault_path now with
  | .error e => (st1, .error e)
  | .ok p => ({ st1 with items := p.1, ledger := p.2 }, .ok ())

/-- States reachable from an empty store by the four record-lifecycle
commands, with each `delete_items` call receiving pairwise-distinct item
ids (the frontend's batch deletes; see the C2 counterexample for what a
duplicated id does). -/
inductive Reach : St → Prop
  | empty (fs : Fs) : Reach ⟨[], [], fs⟩
  | insert {st : St} (h : Reach st) (o : FsOracle) (input : Item) (now : Int) :
      Reach (insert_item o st input now).1
  | insertBatch {st : St} (h : Reach st) (o : FsOracle) (inputs : List Item) (now : Int) :
      Reach (insert_items_batch o st inputs now).1
  | delete {st : St} (h : Reach st) (o : FsOracle) (ids : List RStr) (now : Int)
      (hids : ids.Nodup) : Reach (delete_items_with_cleanup_internal o st ids now).1
  | finalize {st : St} (h : Reach st) (o : FsOracle) (item_id vault_key vault_path : RStr)
      (now : Int) : Reach (finalize_item_import o st item_id vault_key vault_path now).1

/-- A path source for an import: its byte content, the extension
component of the path (Rust `Path::extension`, `none` when the filename
has no embedded dot), the final filename component, and whether the file
can be opened and read. -/
structure PathSource where
  content : List Nat
  extComponent : Option RStr
  fileName : RStr
  readable : Bool
deriving DecidableEq, Repr

/-- Model of `extension_from_path` (lib.rs:1062). -/
def extension_from_path (p : PathSource) : RStr :=
  match p.extComponent with
  | some e => normalize_ext e
  | none => "bin".toList

/-- Model of `extension_from_filename` (lib.rs:1055): the filename's
extension component (text after the last dot, none when there is no dot
or the only dot leads a hidden file), normalized. -/
def extension_from_filename (filename : RStr) : Option RStr :=
  match lastIndexOf '.' filename with
  | none => none
  | some 0 => none
  | some i => some (normalize_ext (filename.drop (i + 1)))

/-- The fields of `VaultImportResult` / `VaultImportComputation`
(lib.rs:1964) the claims are about; the blob path is the
`(bucket, filename)` pair; `created_at` and the stage timings are wall
clock and are not modelled. -/
structure VaultImportComputation where
  vault_path : RStr × RStr
  sha256 : RStr
  ext : RStr
  size : Nat
  original_filename : RStr
  deduped : Bool
deriving DecidableEq, Repr

/-- The shared placement step of `import_with_metadata_detailed`
(lib.rs:2009-2059): look for an existing blob with the vault filename
(taking the last located copy); on a hit write nothing and report
`deduped = true`; otherwise write the bytes into the current month
bucket; finally the size comes from statting the final file. -/
def import_place (o : FsOracle) (bucket : RStr) (fs : Fs) (sha256 ext : RStr)
    (content : List Nat) (original_filename : RStr) :
    Fs × Except RStr VaultImportComputation :=
  let fname := build_vault_filename sha256 ext
  match find_existing_vault_file fs fname with
  | some b =>
    (fs, .ok ⟨(b.bucket, b.filename), sha256, ext, b.content.length, original_filename, true⟩)
  | none =>
    if o.writeBlobOk bucket fname then
      let fs2 := { fs with blobs := fs.blobs ++ [⟨bucket, fname, content⟩] }
      (fs2, .ok ⟨(bucket, fname), sha256, ext, content.length, original_filename, false⟩)
    else (fs, .error ("failed to create destination").toList)

/-- The hash stage of `import_with_metadata_detailed` (lib.rs:1981-2007):
determine the digest, extension and fallback filename of the source
(path extension for a path source; requested extension, else original
filename's extension, else `bin` for a byte source), and reject the
invalid combination of neither or both source kinds. -/
def import_source_key (digest : List Nat → RStr) (source_path : Option PathSource)
    (source_bytes : Option (List Nat)) (requested_ext : Option RStr)
    (original_filename : Option RStr) : Except RStr (RStr × RStr × List Nat × RStr) :=
  match source_path, source_bytes with
  | some p, none =>
    if p.readable then
      .ok (digest p.content, extension_from_path p, p.content,
        (original_filename.getD p.fileName))
    else .error ("failed to read file").toList
  | none, some bytes =>
    .ok (digest bytes,
      (match requested_ext with
        | some e => normalize_ext e
        | none =>
          match original_filename.bind extension_from_filename with
          | some e => e
          | none => "bin".toList),
      bytes, original_filename.getD ("clipboard-image").toList)
  | _, _ =>
    .error ("invalid import request: provide either source_path or source_bytes").toList

/-- Model of `import_with_metadata_detailed` (lib.rs:1971): ensure the
storage root and current month directory, run the hash stage, then place
the blob.  The directory creation happens before the source-kind
contract is validated, exactly as in the source. -/
def import_with_metadata_detailed (digest : List Nat → RStr) (bucket : RStr)
    (o : FsOracle) (fs : Fs) (source_path : Option PathSource)
    (source_bytes : Option (List Nat)) (requested_ext : Option RStr)
    (original_filename : Option RStr) : Fs × Except RStr VaultImportComputation :=
  let fs1 := ensure_current_month_directory (ensure_storage_root_internal fs) bucket
  match import_source_key digest source_path source_bytes requested_ext original_filename with
  | .error e => (fs1, .error e)
  | .ok q => import_place o bucket fs1 q.1 q.2.1 q.2.2.1 q.2.2.2

/-- Model of `generate_thumbnail_internal` (lib.rs:2088): fail when the
input blob is missing, no-op when the output thumbnail already exists,
otherwise decode/resize/encode (collapsed into the oracle; the resize
arithmetic is floating point and outside this model) and write the
thumbnail. -/
def generate_thumbnail_internal (o : FsOracle) (fs : Fs) (input : RStr × RStr)
    (output : RStr) : Except RStr Fs :=
  if (fs.blobs.find? (fun b => decide (b.bucket = input.1 ∧ b.filename = input.2))).isNone then
    .error ("thumbnail source file does not exist").toList
  else if output ∈ fs.thumbs then .ok fs
  else if o.thumbGenOk input output then .ok { fs with thumbs := fs.thumbs ++ [output] }
  else .error ("failed to decode image").toList

/-- Model of `is_image_extension` (lib.rs:2216). -/
def is_image_extension (ext : RStr) : Bool :=
  decide (normalize_ext ext = ("png").toList ∨ normalize_ext ext = ("jpg").toList ∨
    normalize_ext ext = ("jpeg").toList ∨ normalize_ext ext = ("webp").toList ∨
    normalize_ext ext = ("gif").toList ∨ normalize_ext ext = ("bmp").toList)

/-- `IMPORT_THUMB_MAX_SIZE` (lib.rs:37). -/
def IMPORT_THUMB_MAX_SIZE : Nat := 480

/-- `DEFAULT_THUMB_STATUS` (lib.rs:34). -/
def DEFAULT_THUMB_STATUS : RStr := ("pending").toList

/-- The result envelope of the import pipeline (lib.rs `ImportPipelineResult`),
restricted to the modelled fields; `metrics` timings are wall clock and
are not modelled beyond the `deduped` flag. -/
structure ImportPipelineResult where
  vault_path : RStr × RStr
  sha256 : RStr
  ext : RStr
  size : Nat
  original_filename : RStr
  width : Option Nat
  height : Option Nat
  thumb_status : RStr
  thumb_path : Option RStr
  deduped : Bool
deriving DecidableEq, Repr

/-- The image-metadata and thumbnail stages of `run_import_pipeline_internal`
(lib.rs:2257-2362), run after a successful placement: non-image content
gets status `ready`; a dimension-read failure gets status `error`; a
longer side within the threshold gets status `skipped`; otherwise, when
thumbnail generation was requested, a successful generation gets status
`ready` and a failure status `error`, and when it was not requested the
status stays `pending`. -/
def pipeline_after_place (o : FsOracle) (fs : Fs) (c : VaultImportComputation)
    (generate_thumb : Bool) : Fs × ImportPipelineResult :=
  if is_image_extension c.ext then
    match o.readDims c.vault_path with
    | none =>
      (fs, ⟨c.vault_path, c.sha256, c.ext, c.size, c.original_filename, none, none,
        ("error").toList, none, c.deduped⟩)
    | some (w, h) =>
      if max w h ≤ IMPORT_THUMB_MAX_SIZE then
        (fs, ⟨c.vault_path, c.sha256, c.ext, c.size, c.original_filename, some w, some h,
          ("skipped").toList, none, c.deduped⟩)
      else if generate_thumb then
        match thumb_filename_for_vault_key (build_vault_filename c.sha256 c.ext) with
        | .error _ =>
          (fs, ⟨c.vault_path, c.sha256, c.ext, c.size, c.original_filename, some w, some h,
            ("error").toList, none, c.deduped⟩)
        | .ok tf =>
          match generate_thumbnail_internal o fs c.vault_path tf with
          | .ok fs2 =>
            (fs2, ⟨c.vault_path, c.sha256, c.ext, c.size, c.original_filename, some w, some h,
              ("ready").toList, some tf, c.deduped⟩)
          | .error _ =>
            (fs, ⟨c.vault_path, c.sha256, c.ext, c.size, c.original_filename, some w, some h,
              ("error").toList, none, c.deduped⟩)
      else
        (fs, ⟨c.vault_path, c.sha256, c.ext, c.size, c.original_filename, some w, some h,
          DEFAULT_THUMB_STATUS, none, c.deduped⟩)
  else
    (fs, ⟨c.vault_path, c.sha256, c.ext, c.size, c.original_filename, none, none,
      ("ready").toList, none, c.deduped⟩)

/-- Model of `run_import_pipeline_internal` (lib.rs:2239): placement
first (its failure aborts the pipeline via `?`), then the best-effort
image stages. -/
def run_import_pipeline_internal (digest : List Nat → RStr) (bucket : RStr)
    (o : FsOracle) (fs : Fs) (source_path : Option PathSource)
    (source_bytes : Option (List Nat)) (requested_ext : Option RStr)
    (original_filename : Option RStr) (generate_thumb : Bool) :
    Fs × Except RStr ImportPipelineResult :=
  match import_with_metadata_detailed digest bucket o fs source_path source_bytes
      requested_ext original_filename with
  | (fs1, .error e) => (fs1, .error e)
  | (fs1, .ok c) =>
    let after := pipeline_after_place o fs1 c generate_thumb
    (after.1, .ok after.2)

/-- Model of the `process_import_bytes_job` command (lib.rs:4375): reject
an empty byte buffer before anything else runs, then run the pipeline on
the byte source. -/
def process_import_bytes_job (digest : List Nat → RStr) (bucket : RStr) (o : FsOracle)
    (fs : Fs) (bytes : List Nat) (original_filename : Option RStr) (ext : Option RStr)
    (generate_thumb : Bool) : Fs × Except RStr ImportPipelineResult :=
  if bytes = [] then (fs, .error ("cannot import empty byte buffer").toList)
  else run_import_pipeline_internal digest bucket o fs none (some bytes) ext
    original_filename generate_thumb

/-! Helper lemmas about characters, trimming and `normalize_ext`. -/

theorem toNat_ofNat_lt {n : Nat} (h : n < 0xD800) : (Char.ofNat n).toNat = n := by
  simp [Char.ofNat, Nat.isValidChar, h, Char.toNat, Char.ofNatAux, UInt32.ofNat', UInt32.toNat]

theorem toAsciiLowercase_not_upper (c : Char) :
    ¬(0x41 ≤ (toAsciiLowercase c).toNat ∧ (toAsciiLowercase c).toNat ≤ 0x5A) := by
  unfold toAsciiLowercase
  split
  · next h => rw [toNat_ofNat_lt (by omega)]; omega
  · next h => exact h

theorem toAsciiLowercase_fix {c : Char}
    (h : ¬(0x41 ≤ c.toNat ∧ c.toNat ≤ 0x5A)) : toAsciiLowercase c = c := by
  simp [toAsciiLowercase, h]

theorem head?_mem {α : Type} {l : List α} {c : α} (h : l.head? = some c) : c ∈ l := by
  cases l with
  | nil => simp at h
  | cons x xs => simp at h; simp [h]

theorem getLast?_mem {α : Type} {l : List α} {c : α} (h : l.getLast? = some c) : c ∈ l := by
  have h2 : l.reverse.head? = some c := by rw [List.head?_reverse]; exact h
  have := head?_mem h2
  simpa using this

theorem mem_normalize_ext {e : RStr} {c : Char} (h : c ∈ normalize_ext e) :
    isAsciiAlphanumeric c = true ∧ toAsciiLowercase c = c := by
  rw [normalize_ext] at h
  dsimp only at h
  split at h
  · have hb : ("bin").toList = ['b', 'i', 'n'] := rfl
    rw [hb] at h
    have hc : c = 'b' ∨ c = 'i' ∨ c = 'n' := by simpa using h
    rcases hc with h | h | h <;> (subst h; exact ⟨by decide, by decide⟩)
  · split at h
    · have hb : ("bin").toList = ['b', 'i', 'n'] := rfl
      rw [hb] at h
      have hc : c = 'b' ∨ c = 'i' ∨ c = 'n' := by simpa using h
      rcases hc with h | h | h <;> (subst h; exact ⟨by decide, by decide⟩)
    · have h1 := List.mem_filter.mp h
      refine ⟨h1.2, ?_⟩
      have h2 := h1.1
      rcases List.mem_map.mp h2 with ⟨c0, _, hc0⟩
      subst hc0
      exact toAsciiLowercase_fix (toAsciiLowercase_not_upper c0)

theorem normalize_ext_ne_nil (e : RStr) : normalize_ext e ≠ [] := by
  rw [normalize_ext]
  dsimp only
  split
  · decide
  · split
    · decide
    · next h => exact h

theorem alnum_not_ws {c : Char} (h : isAsciiAlphanumeric c = true) :
    rustIsWhitespace c = false := by
  simp [isAsciiAlphanumeric] at h
  simp [rustIsWhitespace]
  omega

theorem alnum_ne_dot {c : Char} (h : isAsciiAlphanumeric c = true) : c ≠ '.' := by
  intro hc
  subst hc
  exact absurd h (by decide)

theorem dropWhile_eq_self_of_head {p : Char → Bool} (l : RStr)
    (h : ∀ c, l.head? = some c → p c = false) : l.dropWhile p = l := by
  cases l with
  | nil => rfl
  | cons x xs => rw [List.dropWhile_cons, h x rfl]; simp

theorem trim_eq_self {l : RStr}
    (h1 : ∀ c, l.head? = some c → rustIsWhitespace c = false)
    (h2 : ∀ c, l.getLast? = some c → rustIsWhitespace c = false) : rustTrim l = l := by
  unfold rustTrim trimEnd trimStart
  rw [dropWhile_eq_self_of_head l.reverse (fun c hc => h2 c (by rwa [List.head?_reverse] at hc))]
  rw [List.reverse_reverse]
  exact dropWhile_eq_self_of_head l h1

theorem lastIndexOf_eq_none {c : Char} {l : RStr} (h : c ∉ l) : lastIndexOf c l = none := by
  induction l with
  | nil => rfl
  | cons x xs ih =>
    simp at h
    rw [lastIndexOf, ih h.2]
    simp [Ne.symm h.1]

theorem lastIndexOf_append {d e : RStr} (hd : '.' ∉ d) (he : '.' ∉ e) :
    lastIndexOf '.' (d ++ '.' :: e) = some d.length := by
  induction d with
  | nil => simp [lastIndexOf, lastIndexOf_eq_none he]
  | cons x xs ih =>
    simp at hd
    rw [List.cons_append, lastIndexOf, ih hd.2]
    simp

theorem map_eq_self_of {α : Type} {f : α → α} {l : List α} (h : ∀ c ∈ l, f c = c) :
    l.map f = l := by
  induction l with
  | nil => rfl
  | cons x xs ih => simp at h ⊢; exact ⟨h.1, ih h.2⟩

theorem normalize_ext_idem (e : RStr) : normalize_ext (normalize_ext e) = normalize_ext e := by
  have hprops : ∀ c ∈ normalize_ext e, isAsciiAlphanumeric c = true ∧ toAsciiLowercase c = c :=
    fun c hc => mem_normalize_ext hc
  have hne := normalize_ext_ne_nil e
  have h1 : rustTrim (normalize_ext e) = normalize_ext e :=
    trim_eq_self
      (fun c hc => alnum_not_ws (hprops c (head?_mem hc)).1)
      (fun c hc => alnum_not_ws (hprops c (getLast?_mem hc)).1)
  have h2 : (normalize_ext e).dropWhile (fun c => decide (c = '.')) = normalize_ext e :=
    dropWhile_eq_self_of_head _ (fun c hc => by
      simp
      exact alnum_ne_dot (hprops c (head?_mem hc)).1)
  have h3 : (normalize_ext e).map toAsciiLowercase = normalize_ext e :=
    map_eq_self_of (fun c hc => (hprops c hc).2)
  conv_lhs => rw [normalize_ext]
  rw [h1]
  rw [show ((normalize_ext e).dropWhile fun c => c = '.') = normalize_ext e from h2]
  rw [h3]
  rw [if_neg hne]
  rw [List.filter_eq_self.mpr (fun c hc => (hprops c hc).1)]
  rw [if_neg hne]

/-- Working round-trip lemma for vault keys, shared by the proofs below. -/
theorem vault_key_roundtrip (d e : RStr) (h1 : d ≠ []) (h2 : '.' ∉ d)
    (h3 : ∀ c, d.head? = some c → rustIsWhitespace c = false) :
    parse_vault_key (build_vault_filename d e) = some (d, normalize_ext e) := by
  have hne := normalize_ext_ne_nil e
  have hprops : ∀ c ∈ normalize_ext e, isAsciiAlphanumeric c = true ∧ toAsciiLowercase c = c :=
    fun c hc => mem_normalize_ext hc
  have hnd : '.' ∉ normalize_ext e := fun hm => alnum_ne_dot (hprops _ hm).1 rfl
  have htrim : rustTrim (d ++ '.' :: normalize_ext e) = d ++ '.' :: normalize_ext e := by
    apply trim_eq_self
    · intro c hc
      rw [List.head?_append_of_ne_nil _ h1] at hc
      exact h3 c hc
    · intro c hc
      rw [List.getLast?_append_of_ne_nil _ (by simp)] at hc
      rw [show ('.' :: normalize_ext e) = ['.'] ++ normalize_ext e from rfl] at hc
      rw [List.getLast?_append_of_ne_nil _ hne] at hc
      exact alnum_not_ws (hprops _ (getLast?_mem hc)).1
  rw [build_vault_filename, parse_vault_key]
  rw [htrim, lastIndexOf_append h2 hnd]
  have hcond : ¬(d.length = 0 ∨ (d ++ '.' :: normalize_ext e).length - 1 ≤ d.length) := by
    push_neg
    constructor
    · simpa using h1
    · have : (normalize_ext e).length ≠ 0 := by simpa using hne
      simp [List.length_append]
      omega
  dsimp only
  rw [if_neg hcond, List.take_left]
  have hdrop : (d ++ '.' :: normalize_ext e).drop (d.length + 1) = normalize_ext e := by
    rw [← List.drop_drop, List.drop_left]
    rfl
  rw [hdrop, normalize_ext_idem]

/-- C10 (corrected): parsing the built vault filename round-trips,
provided the digest is non-empty, contains no dot, and does not begin
with whitespace (the extra whitespace condition is forced because
`parse_vault_key` trims its input; see `c10_counterexample`). -/
theorem c10_vault_key_roundtrip (d e : RStr) (h1 : d ≠ []) (h2 : '.' ∉ d)
    (h3 : ∀ c, d.head? = some c → rustIsWhitespace c = false) :
    parse_vault_key (build_vault_filename d e) = some (d, normalize_ext e) :=
  vault_key_roundtrip d e h1 h2 h3

/-- C10 (corrected): the round-trip fails for a digest with leading
whitespace, because `parse_vault_key` trims its input: for the digest
`" a"` and extension `"x"` the parse returns the stripped digest `"a"`. -/
theorem c10_counterexample :
    parse_vault_key (build_vault_filename (" a").toList ("x").toList) ≠
      some ((" a").toList, normalize_ext ("x").toList) := by
  decide

/-- Witness for `c10_vault_key_roundtrip` at digest `"ab"`, extension `"PNG"`. -/
theorem c10_witness :
    parse_vault_key (build_vault_filename ("ab").toList ("PNG").toList) =
      some (("ab").toList, normalize_ext ("PNG").toList) :=
  c10_vault_key_roundtrip _ _ (by decide) (by decide) (by decide)


theorem vlookup_key {L : List VRow} {k : RStr} {r : VRow} (h : vlookup L k = some r) :
    r.vault_key = k := by
  induction L with
  | nil => simp [vlookup] at h
  | cons r0 rest ih =>
    unfold vlookup at h ih
    rcases Decidable.em (r0.vault_key = k) with hk | hk
    · rw [List.find?_cons_of_pos _ (by simpa using hk)] at h
      cases h
      exact hk
    · rw [List.find?_cons_of_neg _ (by simpa using hk)] at h
      exact ih h

theorem vlookup_not_mem {L : List VRow} {k : RStr} (h : vlookup L k = none) :
    ∀ r ∈ L, r.vault_key ≠ k := by
  intro r hr
  unfold vlookup at h
  have := List.find?_eq_none.mp h r hr
  simpa using this

theorem vlookup_append {L1 L2 : List VRow} {k : RStr} :
    vlookup (L1 ++ L2) k = (vlookup L1 k).or (vlookup L2 k) :=
  List.find?_append

theorem vlookup_map_keyfix {L : List VRow} {f : VRow → VRow}
    (hf : ∀ r, (f r).vault_key = r.vault_key) (k : RStr) :
    vlookup (L.map f) k = (vlookup L k).map f := by
  induction L with
  | nil => rfl
  | cons r rest ih =>
    by_cases hk : r.vault_key = k
    · simp [vlookup, List.find?_cons, hf, hk]
    · simp only [List.map_cons, vlookup, List.find?_cons] at *
      rw [show (decide ((f r).vault_key = k)) = false from by simp [hf, hk]]
      rw [show (decide (r.vault_key = k)) = false from by simp [hk]]
      exact ih

theorem map_id_of_vlookup_none {L : List VRow} {k : RStr} {f : VRow → VRow}
    (h : vlookup L k = none)
    (hf : ∀ r, r.vault_key ≠ k → f r = r) : L.map f = L := by
  induction L with
  | nil => rfl
  | cons r rest ih =>
    have h2 : vlookup rest k = none := by
      unfold vlookup at h ⊢
      exact List.find?_eq_none.mpr
        (fun a ha => List.find?_eq_none.mp h a (List.mem_cons_of_mem _ ha))
    have h1 : r.vault_key ≠ k := vlookup_not_mem h r (List.mem_cons_self r rest)
    simp [hf r h1, ih h2]

/-- Working contract of the ledger increment, shared by the proofs below. -/
theorem increment_contract (ledger : List VRow) (k p : RStr) (now : Int) :
    (rustTrim k = [] → increment_vault_ref_in_tx ledger k p now = .ok ledger) ∧
    (rustTrim k ≠ [] → parse_vault_key k = none →
      increment_vault_ref_in_tx ledger k p now =
        .error (("invalid vault key: ").toList ++ k)) ∧
    (∀ sha ext, rustTrim k ≠ [] → parse_vault_key k = some (sha, ext) →
      ∃ ledger2, increment_vault_ref_in_tx ledger k p now = .ok ledger2 ∧
        refCountD ledger2 k = refCountD ledger k + 1 ∧
        (∃ r, vlookup ledger2 k = some r ∧ r.vault_path = p ∧ r.sha256 = sha ∧
          r.ext = ext ∧ r.updated_at = now ∧ r.ref_count = refCountD ledger k + 1) ∧
        (∀ k2, k2 ≠ k → vlookup ledger2 k2 = vlookup ledger k2)) := by
  refine ⟨fun h => by simp [increment_vault_ref_in_tx, h], ?_, ?_⟩
  · intro h1 h2
    simp [increment_vault_ref_in_tx, h1, h2]
  · intro sha ext h1 h2
    rw [increment_vault_ref_in_tx, if_neg h1, h2]
    cases hv : vlookup ledger k with
    | none =>
      refine ⟨_, rfl, ?_, ?_, ?_⟩
      · simp only [refCountD, vlookup_append, hv]
        simp [vlookup, List.find?_cons]
      · refine ⟨⟨k, p, sha, ext, 0, 1, now, now⟩, ?_, rfl, rfl, rfl, rfl, ?_⟩
        · simp only [vlookup_append, hv]
          simp [vlookup, List.find?_cons]
        · simp [refCountD, hv]
      · intro k2 hk2
        simp only [vlookup_append]
        have hd : (decide (k = k2)) = false := decide_eq_false (fun h => hk2 h.symm)
        have : vlookup [(⟨k, p, sha, ext, 0, 1, now, now⟩ : VRow)] k2 = none := by
          simp [vlookup, List.find?_cons, hd]
        rw [this]
        cases vlookup ledger k2 <;> rfl
    | some r0 =>
      have hkey : r0.vault_key = k := vlookup_key hv
      have hf : ∀ r : VRow, ((fun r : VRow =>
          if r.vault_key = k then
            { r with ref_count := r.ref_count + 1, vault_path := p,
                     sha256 := sha, ext := ext, updated_at := now }
          else r) r).vault_key = r.vault_key := by
        intro r
        by_cases h : r.vault_key = k <;> simp [h]
      refine ⟨_, rfl, ?_, ?_, ?_⟩
      · rw [refCountD, vlookup_map_keyfix hf, hv]
        simp [refCountD, hv, hkey]
      · refine ⟨_, by rw [vlookup_map_keyfix hf, hv]; rfl, ?_⟩
        simp [hkey, refCountD, hv]
      · intro k2 hk2
        rw [vlookup_map_keyfix hf]
        cases hv2 : vlookup ledger k2 with
        | none => rfl
        | some r2 =>
          have : r2.vault_key = k2 := vlookup_key hv2
          simp [this, hk2]

/-- C3 (corrected): the contract of the ledger increment.  A key that is
empty after trimming is accepted as a successful no-op (this is where
the original claim fails, see `c3_counterexample`); a non-empty
unparseable key is rejected verbatim with no change; a parseable key is
upserted: its recorded count grows by one (so a fresh row carries count
1), the row's path, sha, ext and timestamp are refreshed, and every
other key's row is untouched. -/
theorem c3_increment_contract (ledger : List VRow) (k p : RStr) (now : Int) :
    (rustTrim k = [] → increment_vault_ref_in_tx ledger k p now = .ok ledger) ∧
    (rustTrim k ≠ [] → parse_vault_key k = none →
      increment_vault_ref_in_tx ledger k p now =
        .error (("invalid vault key: ").toList ++ k)) ∧
    (∀ sha ext, rustTrim k ≠ [] → parse_vault_key k = some (sha, ext) →
      ∃ ledger2, increment_vault_ref_in_tx ledger k p now = .ok ledger2 ∧
        refCountD ledger2 k = refCountD ledger k + 1 ∧
        (∃ r, vlookup ledger2 k = some r ∧ r.vault_path = p ∧ r.sha256 = sha ∧
          r.ext = ext ∧ r.updated_at = now ∧ r.ref_count = refCountD ledger k + 1) ∧
        (∀ k2, k2 ≠ k → vlookup ledger2 k2 = vlookup ledger k2)) :=
  increment_contract ledger k p now

/-- C3 counterexample to the claim as stated: the empty key token does
not parse, yet the increment succeeds (as a no-op) instead of failing. -/
theorem c3_counterexample :
    parse_vault_key ([] : RStr) = none ∧
      increment_vault_ref_in_tx ([] : List VRow) [] [] 0 = .ok [] :=
  ⟨rfl, rfl⟩

/-- Witness for `c3_increment_contract`: inserting a fresh parseable key
on the empty ledger creates its row with count 1. -/
theorem c3_witness :
    ∃ ledger2,
      increment_vault_ref_in_tx ([] : List VRow) ("a.png").toList ("P").toList 5 = .ok ledger2 ∧
        refCountD ledger2 ("a.png").toList = refCountD ([] : List VRow) ("a.png").toList + 1 ∧
        (∃ r, vlookup ledger2 ("a.png").toList = some r ∧ r.vault_path = ("P").toList ∧
          r.sha256 = ("a").toList ∧ r.ext = ("png").toList ∧ r.updated_at = 5 ∧
          r.ref_count = refCountD ([] : List VRow) ("a.png").toList + 1) ∧
        (∀ k2, k2 ≠ ("a.png").toList → vlookup ledger2 k2 = vlookup ([] : List VRow) k2) :=
  (c3_increment_contract [] (("a.png").toList) (("P").toList) 5).2.2
    (("a").toList) (("png").toList) (by decide) (by decide)

/-- Working contract of the ledger decrement, shared by the proofs below. -/
theorem decrement_contract (ledger : List VRow) (k : RStr) (b now : Int) :
    (rustTrim k = [] → decrement_vault_ref_in_tx ledger k b now = (ledger, 0)) ∧
    (rustTrim k ≠ [] → vlookup ledger k = none →
      decrement_vault_ref_in_tx ledger k b now = (ledger, 0)) ∧
    (rustTrim k ≠ [] → ∀ r, vlookup ledger k = some r →
      refCountD (decrement_vault_ref_in_tx ledger k b now).1 k =
          max (r.ref_count - max b 0) 0 ∧
        (decrement_vault_ref_in_tx ledger k b now).2 =
          max (r.ref_count - max b 0) 0 ∧
        0 ≤ max (r.ref_count - max b 0) 0 ∧
        (∀ k2, k2 ≠ k →
          vlookup (decrement_vault_ref_in_tx ledger k b now).1 k2 = vlookup ledger k2)) := by
  have hf : ∀ r : VRow, ((fun r : VRow =>
      if r.vault_key = k then
        { r with ref_count := if max b 0 < r.ref_count then r.ref_count - max b 0 else 0,
                 updated_at := now }
      else r) r).vault_key = r.vault_key := by
    intro r
    by_cases h : r.vault_key = k <;> simp [h]
  refine ⟨fun h => by simp [decrement_vault_ref_in_tx, h], ?_, ?_⟩
  · intro h1 h2
    have hmap : ledger.map (fun r =>
        if r.vault_key = k then
          { r with ref_count := if max b 0 < r.ref_count then r.ref_count - max b 0 else 0,
                   updated_at := now }
        else r) = ledger :=
      map_id_of_vlookup_none h2 (fun r hr => if_neg hr)
    simp only [decrement_vault_ref_in_tx, if_neg h1]
    rw [hmap, show vlookup ledger k = none from h2]
    rfl
  · intro h1 r hr
    have hkey : r.vault_key = k := vlookup_key hr
    have hval : max (r.ref_count - max b 0) 0 =
        (if max b 0 < r.ref_count then r.ref_count - max b 0 else 0) := by
      rcases Decidable.em (max b 0 < r.ref_count) with h | h
      · rw [if_pos h]; omega
      · rw [if_neg h]; omega
    simp only [decrement_vault_ref_in_tx, if_neg h1]
    refine ⟨?_, ?_, by omega, ?_⟩
    · rw [refCountD, vlookup_map_keyfix hf, hr]
      simp [hkey, hval]
    · rw [vlookup_map_keyfix hf, hr]
      simp [hkey, hval]
    · intro k2 hk2
      rw [vlookup_map_keyfix hf]
      cases hv2 : vlookup ledger k2 with
      | none => rfl
      | some r2 =>
        have : r2.vault_key = k2 := vlookup_key hv2
        simp [this, hk2]

/-- C4: the contract of the ledger decrement.  The amount is clamped to
be at least 0; when the key has a row, the row's count becomes
`max (ref_count - max amount 0) 0` (flooring at zero, hence never
negative), the returned value is that resulting count, and every other
key's row is untouched; a missing row (or an empty-after-trim key)
changes nothing and returns 0. -/
theorem c4_decrement_contract (ledger : List VRow) (k : RStr) (b now : Int) :
    (rustTrim k = [] → decrement_vault_ref_in_tx ledger k b now = (ledger, 0)) ∧
    (rustTrim k ≠ [] → vlookup ledger k = none →
      decrement_vault_ref_in_tx ledger k b now = (ledger, 0)) ∧
    (rustTrim k ≠ [] → ∀ r, vlookup ledger k = some r →
      refCountD (decrement_vault_ref_in_tx ledger k b now).1 k =
          max (r.ref_count - max b 0) 0 ∧
        (decrement_vault_ref_in_tx ledger k b now).2 =
          max (r.ref_count - max b 0) 0 ∧
        0 ≤ max (r.ref_count - max b 0) 0 ∧
        (∀ k2, k2 ≠ k →
          vlookup (decrement_vault_ref_in_tx ledger k b now).1 k2 = vlookup ledger k2)) :=
  decrement_contract ledger k b now

/-- Witness for `c4_decrement_contract`: decrementing a count of 5 by 2
stores and returns 3. -/
theorem c4_witness :
    refCountD (decrement_vault_ref_in_tx
        [⟨("a.x").toList, [], ("a").toList, ("x").toList, 0, 5, 0, 0⟩]
        (("a.x").toList) 2 9).1 (("a.x").toList) = max (5 - max 2 0) 0 ∧
      (decrement_vault_ref_in_tx
        [⟨("a.x").toList, [], ("a").toList, ("x").toList, 0, 5, 0, 0⟩]
        (("a.x").toList) 2 9).2 = max (5 - max 2 0) 0 ∧
      0 ≤ max ((5 : Int) - max 2 0) 0 ∧
      (∀ k2, k2 ≠ ("a.x").toList →
        vlookup (decrement_vault_ref_in_tx
          [⟨("a.x").toList, [], ("a").toList, ("x").toList, 0, 5, 0, 0⟩]
          (("a.x").toList) 2 9).1 k2 =
        vlookup [⟨("a.x").toList, [], ("a").toList, ("x").toList, 0, 5, 0, 0⟩] k2) :=
  (c4_decrement_contract
      [⟨("a.x").toList, [], ("a").toList, ("x").toList, 0, 5, 0, 0⟩]
      (("a.x").toList) 2 9).2.2 (by decide)
    (⟨("a.x").toList, [], ("a").toList, ("x").toList, 0, 5, 0, 0⟩ : VRow) (by decide)

/-! Helper lemmas for the garbage-collection sweep (claim C1). -/

theorem remove_thumbnail_ok {o : FsOracle} {fs : Fs} {k : RStr} {fs2 : Fs} {flag : Bool}
    (h : remove_thumbnail_for_vault_key o fs k = .ok (fs2, flag)) :
    fs2.blobs = fs.blobs ∧ fs2.rootExists = fs.rootExists ∧
      (∀ t ∈ fs2.thumbs, t ∈ fs.thumbs) ∧
      (∀ tf, thumb_filename_for_vault_key k = .ok tf → tf ∉ fs2.thumbs) := by
  unfold remove_thumbnail_for_vault_key at h
  split at h
  · exact absurd h (by simp)
  next f htf =>
    split at h
    · next hmem =>
      split at h
      · next hok =>
        cases h
        refine ⟨rfl, rfl, ?_, ?_⟩
        · intro t ht
          exact (List.mem_filter.mp ht).1
        · intro tf htf2 hin
          rw [htf] at htf2
          cases htf2
          have := (List.mem_filter.mp hin).2
          simp at this
      · exact absurd h (by simp)
    · next hmem =>
      cases h
      refine ⟨rfl, rfl, fun t ht => ht, ?_⟩
      intro tf htf2 hin
      rw [htf] at htf2
      cases htf2
      exact hmem hin

theorem remove_located_blobs_sub (o : FsOracle) (fname : RStr) :
    ∀ (l : List Blob) (fs : Fs),
      (∀ b ∈ (remove_located_blobs o fname l fs).1.blobs, b ∈ fs.blobs) ∧
      (remove_located_blobs o fname l fs).1.thumbs = fs.thumbs ∧
      (remove_located_blobs o fname l fs).1.rootExists = fs.rootExists := by
  intro l
  induction l with
  | nil => intro fs; exact ⟨fun b hb => hb, rfl, rfl⟩
  | cons b0 rest ih =>
    intro fs
    rw [remove_located_blobs]
    by_cases hok : o.removeBlobOk b0.bucket fname = true
    · rw [if_pos hok]
      refine ⟨?_, ?_, ?_⟩
      · intro b hb
        have := (ih (removeBlobPath fs b0.bucket fname)).1 b hb
        exact (List.mem_filter.mp this).1
      · exact (ih _).2.1
      · exact (ih _).2.2
    · rw [if_neg hok]
      exact ⟨(ih fs).1, (ih fs).2.1, (ih fs).2.2⟩

theorem remove_located_blobs_ok (o : FsOracle) (fname : RStr) :
    ∀ (l : List Blob) (fs : Fs), (remove_located_blobs o fname l fs).2 = true →
      ∀ b ∈ l, ∀ b2 ∈ (remove_located_blobs o fname l fs).1.blobs,
        ¬(b2.bucket = b.bucket ∧ b2.filename = fname) := by
  intro l
  induction l with
  | nil => intro fs _ b hb; simp at hb
  | cons b0 rest ih =>
    intro fs hok2 b hb b2 hb2
    rw [remove_located_blobs] at hok2 hb2
    by_cases hok : o.removeBlobOk b0.bucket fname = true
    · rw [if_pos hok] at hok2 hb2
      rcases List.mem_cons.mp hb with hb | hb
      · subst hb
        have hsub := (remove_located_blobs_sub o fname rest (removeBlobPath fs b.bucket fname)).1 b2 hb2
        have h3 := (List.mem_filter.mp hsub).2
        simp at h3
        rintro ⟨ha, hbf⟩
        rcases h3 with h3 | h3
        · exact h3 ha
        · exact h3 hbf
      · exact ih _ hok2 b hb b2 hb2
    · rw [if_neg hok] at hok2
      simp at hok2

theorem cleanup_vault_row_sub (o : FsOracle) (fs : Fs) (k s e : RStr) :
    (∀ b ∈ (cleanup_vault_row o fs k s e).1.blobs, b ∈ fs.blobs) ∧
    (∀ t ∈ (cleanup_vault_row o fs k s e).1.thumbs, t ∈ fs.thumbs) ∧
    (cleanup_vault_row o fs k s e).1.rootExists = fs.rootExists := by
  have hsub := remove_located_blobs_sub o (build_vault_filename s e)
    (find_vault_files fs (build_vault_filename s e)) fs
  simp only [cleanup_vault_row]
  split
  · next fs2 flag hth =>
    obtain ⟨hb, hr, ht, _⟩ := remove_thumbnail_ok hth
    refine ⟨?_, ?_, ?_⟩
    · intro b hbm
      rw [hb] at hbm
      exact hsub.1 b hbm
    · intro t htm
      have := ht t htm
      rw [hsub.2.1] at this
      exact this
    · rw [hr, hsub.2.2]
  · next e2 hth =>
    exact ⟨hsub.1, fun t htm => by rw [hsub.2.1] at htm; exact htm, hsub.2.2⟩

theorem cleanup_vault_row_clean (o : FsOracle) (fs : Fs) (k s e : RStr)
    (h : (cleanup_vault_row o fs k s e).2 = true) :
    find_vault_files (cleanup_vault_row o fs k s e).1 (build_vault_filename s e) = [] ∧
    (∀ tf, thumb_filename_for_vault_key k = .ok tf →
      tf ∉ (cleanup_vault_row o fs k s e).1.thumbs) := by
  have hsub := remove_located_blobs_sub o (build_vault_filename s e)
    (find_vault_files fs (build_vault_filename s e)) fs
  simp only [cleanup_vault_row] at h ⊢
  cases hth : remove_thumbnail_for_vault_key o (remove_located_blobs o
      (build_vault_filename s e) (find_vault_files fs (build_vault_filename s e)) fs).1 k with
  | error e2 =>
    rw [hth] at h
    simp at h
  | ok p =>
    obtain ⟨fs2, flag⟩ := p
    rw [hth] at h
    dsimp only at h ⊢
    obtain ⟨hb, hr, ht, htf⟩ := remove_thumbnail_ok hth
    refine ⟨?_, htf⟩
    cases hroot : fs2.rootExists with
    | false => simp [find_vault_files, hroot]
    | true =>
      have hstep : (remove_located_blobs o (build_vault_filename s e)
          (find_vault_files fs (build_vault_filename s e)) fs).1.rootExists = true := by
        rw [← hr, hroot]
      have hfsroot : fs.rootExists = true := by rw [← hsub.2.2, hstep]
      unfold find_vault_files
      rw [if_pos (by rw [hroot])]
      rw [List.filter_eq_nil_iff]
      intro b hbm hdec
      have hfname : b.filename = build_vault_filename s e := of_decide_eq_true hdec
      rw [hb] at hbm
      have hbfs : b ∈ fs.blobs := hsub.1 b hbm
      have hbloc : b ∈ find_vault_files fs (build_vault_filename s e) := by
        unfold find_vault_files
        rw [if_pos (by rw [hfsroot])]
        exact List.mem_filter.mpr ⟨hbfs, by simp [hfname]⟩
      exact remove_located_blobs_ok o (build_vault_filename s e) _ fs h b hbloc b hbm
        ⟨rfl, hfname⟩

theorem find_nil_persist {fsA fsB : Fs} {fname : RStr}
    (h : find_vault_files fsA fname = [])
    (hsub : ∀ b ∈ fsB.blobs, b ∈ fsA.blobs)
    (hroot : fsB.rootExists = fsA.rootExists) :
    find_vault_files fsB fname = [] := by
  cases hr : fsA.rootExists with
  | false =>
    unfold find_vault_files
    rw [hroot, hr]
    rfl
  | true =>
    unfold find_vault_files at h ⊢
    rw [hr] at h
    rw [hroot, hr]
    simp only [if_true] at h ⊢
    rw [List.filter_eq_nil_iff] at h ⊢
    exact fun b hb => h b (hsub b hb)

theorem sweep_rows_sub (o : FsOracle) :
    ∀ (l : List (RStr × RStr × RStr)) (fs : Fs) (acc : List RStr),
      (∀ b ∈ (sweep_rows o l fs acc).1.blobs, b ∈ fs.blobs) ∧
      (∀ t ∈ (sweep_rows o l fs acc).1.thumbs, t ∈ fs.thumbs) ∧
      (sweep_rows o l fs acc).1.rootExists = fs.rootExists := by
  intro l
  induction l with
  | nil => exact fun fs acc => ⟨fun b hb => hb, fun t ht => ht, rfl⟩
  | cons en rest ih =>
    intro fs acc
    have hc := cleanup_vault_row_sub o fs en.1 en.2.1 en.2.2
    simp only [sweep_rows]
    refine ⟨?_, ?_, ?_⟩
    · intro b hb
      exact hc.1 b ((ih _ _).1 b hb)
    · intro t ht
      exact hc.2.1 t ((ih _ _).2.1 t ht)
    · rw [(ih _ _).2.2, hc.2.2]

theorem sweep_rows_keys (o : FsOracle) :
    ∀ (l : List (RStr × RStr × RStr)) (fs : Fs) (acc : List RStr) (k : RStr),
      k ∈ (sweep_rows o l fs acc).2 → k ∈ acc ∨ ∃ en ∈ l, en.1 = k := by
  intro l
  induction l with
  | nil => intro fs acc k hk; exact Or.inl hk
  | cons en rest ih =>
    intro fs acc k hk
    simp only [sweep_rows] at hk
    rcases ih _ _ k hk with hin | ⟨en2, hen2, hk2⟩
    · by_cases hok : (cleanup_vault_row o fs en.1 en.2.1 en.2.2).2 = true
      · rw [if_pos hok] at hin
        rcases List.mem_append.mp hin with hin | hin
        · exact Or.inl hin
        · refine Or.inr ⟨en, List.mem_cons_self en rest, ?_⟩
          have h2 : k = en.1 := by simpa using hin
          exact h2.symm
      · rw [if_neg hok] at hin
        exact Or.inl hin
    · exact Or.inr ⟨en2, List.mem_cons_of_mem _ hen2, hk2⟩

theorem sweep_rows_clean (o : FsOracle) :
    ∀ (l : List (RStr × RStr × RStr)) (fs : Fs) (acc : List RStr),
      (l.map (fun en => en.1)).Nodup → (∀ en ∈ l, en.1 ∉ acc) →
      ∀ en ∈ l, en.1 ∈ (sweep_rows o l fs acc).2 →
        find_vault_files (sweep_rows o l fs acc).1 (build_vault_filename en.2.1 en.2.2) = [] ∧
        (∀ tf, thumb_filename_for_vault_key en.1 = .ok tf →
          tf ∉ (sweep_rows o l fs acc).1.thumbs) := by
  intro l
  induction l with
  | nil => intro fs acc _ _ en hen; simp at hen
  | cons en0 rest ih =>
    intro fs acc hnd hacc en hen hkey
    have hnd2 : (rest.map (fun en => en.1)).Nodup := (List.nodup_cons.mp hnd).2
    have hne0 : en0.1 ∉ rest.map (fun en => en.1) := (List.nodup_cons.mp hnd).1
    rcases List.mem_cons.mp hen with rfl | hen2
    · by_cases hok : (cleanup_vault_row o fs en.1 en.2.1 en.2.2).2 = true
      · have hclean := cleanup_vault_row_clean o fs en.1 en.2.1 en.2.2 hok
        have hsub := sweep_rows_sub o rest (cleanup_vault_row o fs en.1 en.2.1 en.2.2).1
          (acc ++ [en.1])
        simp only [sweep_rows, if_pos hok]
        refine ⟨find_nil_persist hclean.1 hsub.1 hsub.2.2, ?_⟩
        intro tf htf hmem
        exact hclean.2 tf htf (hsub.2.1 tf hmem)
      · simp only [sweep_rows, if_neg hok] at hkey
        rcases sweep_rows_keys o rest _ _ en.1 hkey with hin | ⟨en2, hen2, hk2⟩
        · exact absurd hin (hacc en (List.mem_cons_self en rest))
        · exact absurd (List.mem_map.mpr ⟨en2, hen2, hk2⟩) hne0
    · simp only [sweep_rows] at hkey ⊢
      have hacc2 : ∀ en2 ∈ rest, en2.1 ∉
          (if (cleanup_vault_row o fs en0.1 en0.2.1 en0.2.2).2 = true
            then acc ++ [en0.1] else acc) := by
        intro en2 hen2
        split
        · intro hmem
          rcases List.mem_append.mp hmem with hmem | hmem
          · exact hacc en2 (List.mem_cons_of_mem _ hen2) hmem
          · have h2 : en2.1 = en0.1 := by simpa using hmem
            exact hne0 (List.mem_map.mpr ⟨en2, hen2, h2⟩)
        · exact hacc en2 (List.mem_cons_of_mem _ hen2)
      exact ih _ _ hnd2 hacc2 en hen2 hkey

theorem nodup_key_eq {L : List VRow} (h : (L.map VRow.vault_key).Nodup) {a b : VRow}
    (ha : a ∈ L) (hb : b ∈ L) (hk : a.vault_key = b.vault_key) : a = b :=
  List.inj_on_of_nodup_map h ha hb hk

theorem mem_filter_of_not_mem {p : VRow → Bool} {l : List VRow} {r : VRow}
    (hr : r ∈ l) (h : r ∉ l.filter p) : p r = false := by
  by_cases hp : p r = true
  · exact absurd (List.mem_filter.mpr ⟨hr, hp⟩) h
  · simpa using hp

theorem cleanup_zero_ref_safety (o : FsOracle) (st : St)
    (hnd : (st.ledger.map VRow.vault_key).Nodup) :
    ∀ r ∈ st.ledger,
      (0 < r.ref_count → r ∈ (cleanup_zero_ref_vault_files o st).ledger) ∧
      (r ∉ (cleanup_zero_ref_vault_files o st).ledger →
        r.ref_count ≤ 0 ∧
        find_vault_files (cleanup_zero_ref_vault_files o st).fs
          (build_vault_filename r.sha256 r.ext) = [] ∧
        (∀ tf, thumb_filename_for_vault_key r.vault_key = .ok tf →
          tf ∉ (cleanup_zero_ref_vault_files o st).fs.thumbs)) := by
  intro r hr
  by_cases hp : st.ledger.filter (fun r2 => decide (r2.ref_count ≤ 0)) = []
  · simp only [cleanup_zero_ref_vault_files, hp]
    exact ⟨fun _ => hr, fun habs => absurd hr habs⟩
  · have hkeysub : ((st.ledger.filter (fun r2 => decide (r2.ref_count ≤ 0))).map
        (fun r2 => (r2.vault_key, r2.sha256, r2.ext))).map (fun en => en.1) =
        (st.ledger.filter (fun r2 => decide (r2.ref_count ≤ 0))).map VRow.vault_key := by
      rw [List.map_map]
      rfl
    have hndp : (((st.ledger.filter (fun r2 => decide (r2.ref_count ≤ 0))).map
        (fun r2 => (r2.vault_key, r2.sha256, r2.ext))).map (fun en => en.1)).Nodup := by
      rw [hkeysub]
      exact List.Nodup.sublist (List.Sublist.map _ (List.filter_sublist _)) hnd
    have hA1 : ∀ k, k ∈ (sweep_rows o ((st.ledger.filter
          (fun r2 => decide (r2.ref_count ≤ 0))).map
          (fun r2 => (r2.vault_key, r2.sha256, r2.ext)))
          (ensure_storage_root_internal st.fs) []).2 →
        ∃ r2 ∈ st.ledger.filter (fun r2 => decide (r2.ref_count ≤ 0)), r2.vault_key = k := by
      intro k hk
      rcases sweep_rows_keys o _ _ _ k hk with hin | ⟨en, hen, hk2⟩
      · simp at hin
      · rcases List.mem_map.mp hen with ⟨r2, hr2, hen2⟩
        exact ⟨r2, hr2, by rw [← hk2, ← hen2]⟩
    have hA2 : r.vault_key ∈ (sweep_rows o ((st.ledger.filter
          (fun r2 => decide (r2.ref_count ≤ 0))).map
          (fun r2 => (r2.vault_key, r2.sha256, r2.ext)))
          (ensure_storage_root_internal st.fs) []).2 → r.ref_count ≤ 0 := by
      intro hk
      rcases hA1 _ hk with ⟨r2, hr2, hk2⟩
      have hr2l := (List.mem_filter.mp hr2).1
      have hr2c := (List.mem_filter.mp hr2).2
      have : r2 = r := nodup_key_eq hnd hr2l hr hk2
      subst this
      simpa using hr2c
    simp only [cleanup_zero_ref_vault_files, if_neg hp]
    constructor
    · intro hpos
      refine List.mem_filter.mpr ⟨hr, ?_⟩
      simp only [decide_eq_true_eq]
      intro hk
      have := hA2 hk
      omega
    · intro hnot
      have hkey : r.vault_key ∈ (sweep_rows o ((st.ledger.filter
          (fun r2 => decide (r2.ref_count ≤ 0))).map
          (fun r2 => (r2.vault_key, r2.sha256, r2.ext)))
          (ensure_storage_root_internal st.fs) []).2 := by
        have := mem_filter_of_not_mem hr hnot
        simpa using this
      have href := hA2 hkey
      have hrp : r ∈ st.ledger.filter (fun r2 => decide (r2.ref_count ≤ 0)) :=
        List.mem_filter.mpr ⟨hr, by simpa using href⟩
      have hen : (r.vault_key, r.sha256, r.ext) ∈ (st.ledger.filter
          (fun r2 => decide (r2.ref_count ≤ 0))).map
          (fun r2 => (r2.vault_key, r2.sha256, r2.ext)) :=
        List.mem_map.mpr ⟨r, hrp, rfl⟩
      have hclean := sweep_rows_clean o _ (ensure_storage_root_internal st.fs) [] hndp
        (fun en _ => by simp) (r.vault_key, r.sha256, r.ext) hen hkey
      exact ⟨href, hclean.1, hclean.2⟩

theorem decrement_keys (L : List VRow) (k : RStr) (b now : Int) :
    ((decrement_vault_ref_in_tx L k b now).1).map VRow.vault_key = L.map VRow.vault_key := by
  by_cases h : rustTrim k = []
  · simp [decrement_vault_ref_in_tx, h]
  · simp only [decrement_vault_ref_in_tx, if_neg h]
    rw [List.map_map]
    apply List.map_congr_left
    intro r _
    by_cases hk : r.vault_key = k <;> simp [hk]

theorem foldl_dec_keys (g : RStr → Int) (now : Int) :
    ∀ (keys : List RStr) (L : List VRow),
      ((keys.foldl (fun led k => (decrement_vault_ref_in_tx led k (g k) now).1) L).map
        VRow.vault_key) = L.map VRow.vault_key := by
  intro keys
  induction keys with
  | nil => intro L; rfl
  | cons k0 rest ih =>
    intro L
    rw [List.foldl_cons, ih, decrement_keys]

theorem filterMap_fst_sub {f : RStr → Option (RStr × RStr × RStr)}
    (hf : ∀ k en, f k = some en → en.1 = k) :
    ∀ (keys : List RStr) (k2 : RStr),
      k2 ∈ (keys.filterMap f).map (fun en => en.1) → k2 ∈ keys := by
  intro keys k2 hk
  rcases List.mem_map.mp hk with ⟨en, hen, hk2⟩
  rcases List.mem_filterMap.mp hen with ⟨k0, hk0, hfk0⟩
  rw [← hk2, hf k0 en hfk0]
  exact hk0

theorem filterMap_fst_nodup {f : RStr → Option (RStr × RStr × RStr)}
    (hf : ∀ k en, f k = some en → en.1 = k) :
    ∀ (keys : List RStr), keys.Nodup → ((keys.filterMap f).map (fun en => en.1)).Nodup := by
  intro keys
  induction keys with
  | nil => intro _; simp
  | cons k0 rest ih =>
    intro hnd
    rw [List.filterMap_cons]
    cases hfk : f k0 with
    | none => exact ih (List.nodup_cons.mp hnd).2
    | some en =>
      rw [List.map_cons]
      refine List.nodup_cons.mpr ⟨?_, ih (List.nodup_cons.mp hnd).2⟩
      intro hmem
      rw [hf k0 en hfk] at hmem
      exact (List.nodup_cons.mp hnd).1 (filterMap_fst_sub hf rest k0 hmem)

theorem delete_cleanup_phase_pruned (o : FsOracle)
    (txr : St × List (RStr × RStr × RStr) × Nat)
    (hnd : (txr.2.1.map (fun en => en.1)).Nodup) :
    ∀ k, k ∈ txr.1.ledger.map VRow.vault_key →
      k ∉ (delete_items_cleanup_phase o txr).1.ledger.map VRow.vault_key →
      ∃ en ∈ txr.2.1, en.1 = k ∧
        find_vault_files (delete_items_cleanup_phase o txr).1.fs
          (build_vault_filename en.2.1 en.2.2) = [] ∧
        (∀ tf, thumb_filename_for_vault_key k = .ok tf →
          tf ∉ (delete_items_cleanup_phase o txr).1.fs.thumbs) := by
  intro k hkmem hknot
  simp only [delete_items_cleanup_phase] at hknot ⊢
  rcases List.mem_map.mp hkmem with ⟨r2, hr2, hkey⟩
  have hr2not : r2 ∉ txr.1.ledger.filter (fun r3 => decide (r3.vault_key ∉
      (sweep_rows o txr.2.1 (ensure_storage_root_internal txr.1.fs) []).2)) := by
    intro hmem
    exact hknot (List.mem_map.mpr ⟨r2, hmem, hkey⟩)
  have hpred := mem_filter_of_not_mem hr2 hr2not
  have hkin : k ∈ (sweep_rows o txr.2.1 (ensure_storage_root_internal txr.1.fs) []).2 := by
    rw [← hkey]
    simpa using hpred
  rcases sweep_rows_keys o _ _ _ k hkin with hin | ⟨en, hen, hk2⟩
  · simp at hin
  · have hclean := sweep_rows_clean o txr.2.1 (ensure_storage_root_internal txr.1.fs) []
      hnd (fun en2 _ => by simp) en hen (by rw [hk2]; exact hkin)
    exact ⟨en, hen, hk2, hclean.1, by rw [← hk2]; exact hclean.2⟩

theorem delete_items_tx_cand (st : St) (ids : List RStr) (now : Int) :
    ∀ en ∈ (delete_items_tx st ids now).2.1,
      refCountD (delete_items_tx st ids now).1.ledger en.1 = 0 ∧
      itemCount (delete_items_tx st ids now).1.items en.1 = 0 ∧
      parse_vault_key en.1 = some (en.2.1, en.2.2) := by
  intro en hen
  have hen2 : en ∈ (delete_key_list st.items ids).filterMap (fun k =>
      if refCountD ((delete_key_list st.items ids).foldl (fun led k2 =>
          (decrement_vault_ref_in_tx led k2 (delete_counts st.items ids k2) now).1) st.ledger) k = 0 ∧
        itemCount (st.items.filter (fun i => decide (i.id ∉ ids))) k = 0 then
        (parse_vault_key k).map (fun p => (k, p.1, p.2))
      else none) := hen
  rcases List.mem_filterMap.mp hen2 with ⟨k0, hk0, hf⟩
  by_cases hcond : refCountD ((delete_key_list st.items ids).foldl (fun led k2 =>
      (decrement_vault_ref_in_tx led k2 (delete_counts st.items ids k2) now).1) st.ledger) k0 = 0 ∧
      itemCount (st.items.filter (fun i => decide (i.id ∉ ids))) k0 = 0
  · rw [if_pos hcond] at hf
    rcases Option.map_eq_some'.mp hf with ⟨p, hp, hen3⟩
    rw [← hen3]
    exact ⟨hcond.1, hcond.2, by rw [hp]⟩
  · rw [if_neg hcond] at hf
    cases hf

theorem delete_items_tx_cand_nodup (st : St) (ids : List RStr) (now : Int) :
    ((delete_items_tx st ids now).2.1.map (fun en => en.1)).Nodup := by
  apply filterMap_fst_nodup
  · intro k en hf
    by_cases hcond : refCountD ((delete_key_list st.items ids).foldl (fun led k2 =>
        (decrement_vault_ref_in_tx led k2 (delete_counts st.items ids k2) now).1) st.ledger) k = 0 ∧
        itemCount (st.items.filter (fun i => decide (i.id ∉ ids))) k = 0
    · rw [if_pos hcond] at hf
      rcases Option.map_eq_some'.mp hf with ⟨p, _, hen3⟩
      rw [← hen3]
    · rw [if_neg hcond] at hf
      cases hf
  · exact List.nodup_dedup _

theorem delete_items_gc_safety (o : FsOracle) (st : St) (ids : List RStr) (now : Int)
    (hids : ids ≠ []) :
    ∀ k, k ∈ (delete_items_tx (init_db o st now) ids now).1.ledger.map VRow.vault_key →
      k ∉ (delete_items_with_cleanup_internal o st ids now).1.ledger.map VRow.vault_key →
      refCountD (delete_items_tx (init_db o st now) ids now).1.ledger k = 0 ∧
      (∃ sha ext, parse_vault_key k = some (sha, ext) ∧
        find_vault_files (delete_items_with_cleanup_internal o st ids now).1.fs
          (build_vault_filename sha ext) = [] ∧
        (∀ tf, thumb_filename_for_vault_key k = .ok tf →
          tf ∉ (delete_items_with_cleanup_internal o st ids now).1.fs.thumbs)) := by
  intro k hkmem hknot
  have hne : delete_items_with_cleanup_internal o st ids now =
      delete_items_cleanup_phase o (delete_items_tx (init_db o st now) ids now) := by
    rw [delete_items_with_cleanup_internal, if_neg hids]
  rw [hne] at hknot ⊢
  rcases delete_cleanup_phase_pruned o (delete_items_tx (init_db o st now) ids now)
      (delete_items_tx_cand_nodup _ _ _) k hkmem hknot with ⟨en, hen, hk2, hfind, hthumb⟩
  have hcand := delete_items_tx_cand (init_db o st now) ids now en hen
  rw [hk2] at hcand
  exact ⟨hcand.1, en.2.1, en.2.2, hcand.2.2, hfind, hthumb⟩

/-- C1: GC safety of both sweep paths.  Startup sweep
(`cleanup_zero_ref_vault_files`): a row with positive `ref_count` is
never deleted, and a deleted row had `ref_count ≤ 0` and, afterwards, no
blob copy of its vault filename and no thumbnail of its key exist (a row
whose cleanup failed in any part is therefore still present, since its
blob or thumbnail still exists).  Post-delete cleanup
(`delete_items_with_cleanup_internal`): a key whose row exists when the
delete transaction commits and whose row is gone afterwards had a
recorded post-decrement `ref_count` of 0, and its blob copies and
thumbnail are gone from the final filesystem state. -/
theorem c1_gc_safety :
    (∀ (o : FsOracle) (st : St), (st.ledger.map VRow.vault_key).Nodup →
      ∀ r ∈ st.ledger,
        (0 < r.ref_count → r ∈ (cleanup_zero_ref_vault_files o st).ledger) ∧
        (r ∉ (cleanup_zero_ref_vault_files o st).ledger →
          r.ref_count ≤ 0 ∧
          find_vault_files (cleanup_zero_ref_vault_files o st).fs
            (build_vault_filename r.sha256 r.ext) = [] ∧
          (∀ tf, thumb_filename_for_vault_key r.vault_key = .ok tf →
            tf ∉ (cleanup_zero_ref_vault_files o st).fs.thumbs))) ∧
    (∀ (o : FsOracle) (st : St) (ids : List RStr) (now : Int), ids ≠ [] →
      ∀ k, k ∈ (delete_items_tx (init_db o st now) ids now).1.ledger.map VRow.vault_key →
        k ∉ (delete_items_with_cleanup_internal o st ids now).1.ledger.map VRow.vault_key →
        refCountD (delete_items_tx (init_db o st now) ids now).1.ledger k = 0 ∧
        (∃ sha ext, parse_vault_key k = some (sha, ext) ∧
          find_vault_files (delete_items_with_cleanup_internal o st ids now).1.fs
            (build_vault_filename sha ext) = [] ∧
          (∀ tf, thumb_filename_for_vault_key k = .ok tf →
            tf ∉ (delete_items_with_cleanup_internal o st ids now).1.fs.thumbs))) :=
  ⟨fun o st hnd => cleanup_zero_ref_safety o st hnd,
   fun o st ids now hids => delete_items_gc_safety o st ids now hids⟩

/-- Witness for `c1_gc_safety`: a concrete zero-ref row whose blob and
thumbnail exist and whose removals succeed is swept, and afterwards
neither the blob nor the thumbnail nor the row remain. -/
theorem c1_witness :
    (⟨("a.x").toList, [], ("a").toList, ("x").toList, 0, 0, 0, 0⟩ : VRow).ref_count ≤ 0 ∧
    find_vault_files (cleanup_zero_ref_vault_files
        ⟨fun _ _ => true, fun _ => true, fun _ _ => true, fun _ => none, fun _ _ => true⟩
        ⟨[], [⟨("a.x").toList, [], ("a").toList, ("x").toList, 0, 0, 0, 0⟩],
          ⟨true, [("B").toList], [⟨("B").toList, ("a.x").toList, [1]⟩],
            [("a.x.webp").toList]⟩⟩).fs
      (build_vault_filename ("a").toList ("x").toList) = [] ∧
    (∀ tf, thumb_filename_for_vault_key ("a.x").toList = .ok tf →
      tf ∉ (cleanup_zero_ref_vault_files
        ⟨fun _ _ => true, fun _ => true, fun _ _ => true, fun _ => none, fun _ _ => true⟩
        ⟨[], [⟨("a.x").toList, [], ("a").toList, ("x").toList, 0, 0, 0, 0⟩],
          ⟨true, [("B").toList], [⟨("B").toList, ("a.x").toList, [1]⟩],
            [("a.x.webp").toList]⟩⟩).fs.thumbs) :=
  (c1_gc_safety.1
      ⟨fun _ _ => true, fun _ => true, fun _ _ => true, fun _ => none, fun _ _ => true⟩
      ⟨[], [⟨("a.x").toList, [], ("a").toList, ("x").toList, 0, 0, 0, 0⟩],
        ⟨true, [("B").toList], [⟨("B").toList, ("a.x").toList, [1]⟩],
          [("a.x.webp").toList]⟩⟩
      (by decide) _ (by decide)).2 (by decide)

/-! Helper lemmas for the ledger-conservation invariant (claim C2). -/

theorem vlookup_mem {L : List VRow} {k : RStr} {r : VRow} (h : vlookup L k = some r) :
    r ∈ L := by
  unfold vlookup at h
  exact List.mem_of_find?_eq_some h

theorem vlookup_self_of_nodup {L : List VRow} (hnd : (L.map VRow.vault_key).Nodup)
    {r : VRow} (hr : r ∈ L) : vlookup L r.vault_key = some r := by
  induction L with
  | nil => simp at hr
  | cons r0 rest ih =>
    rcases List.mem_cons.mp hr with rfl | hr2
    · unfold vlookup
      rw [List.find?_cons_of_pos _ (by simp)]
    · have hne : r.vault_key ≠ r0.vault_key := by
        intro he
        exact (List.nodup_cons.mp hnd).1 (he ▸ List.mem_map.mpr ⟨r, hr2, rfl⟩)
      unfold vlookup
      rw [List.find?_cons_of_neg _ (by simpa using fun he => hne he.symm)]
      exact ih (List.nodup_cons.mp hnd).2 hr2

theorem vlookup_filter_none {L : List VRow} {p : VRow → Bool} {k : RStr}
    (h : vlookup L k = none) : vlookup (L.filter p) k = none := by
  unfold vlookup at h ⊢
  rw [List.find?_eq_none] at h ⊢
  exact fun r hr => h r (List.mem_of_mem_filter hr)

theorem vlookup_filter_of_nodup {L : List VRow} (hnd : (L.map VRow.vault_key).Nodup)
    (p : VRow → Bool) (k : RStr) :
    vlookup (L.filter p) k =
      match vlookup L k with
      | none => none
      | some r => if p r then some r else none := by
  cases hv : vlookup L k with
  | none => exact vlookup_filter_none hv
  | some r =>
    have hkey := vlookup_key hv
    have hmem := vlookup_mem hv
    by_cases hp : p r = true
    · have : r ∈ L.filter p := List.mem_filter.mpr ⟨hmem, hp⟩
      have := vlookup_self_of_nodup
        (List.Nodup.sublist (List.Sublist.map _ (List.filter_sublist _)) hnd) this
      rw [hkey] at this
      simp [this, hp]
    · have hnone : vlookup (L.filter p) k = none := by
        unfold vlookup
        rw [List.find?_eq_none]
        intro r2 hr2 hdec
        have hr2L := List.mem_of_mem_filter hr2
        have hr2k : r2.vault_key = k := by simpa using hdec
        have : r2 = r := nodup_key_eq hnd hr2L hmem (by rw [hr2k, ← hkey])
        subst this
        exact hp (List.of_mem_filter hr2)
      simp [hnone, hp]

theorem increment_keys_nodup {L : List VRow} {k p : RStr} {now : Int} {L2 : List VRow}
    (hnd : (L.map VRow.vault_key).Nodup)
    (h : increment_vault_ref_in_tx L k p now = .ok L2) :
    (L2.map VRow.vault_key).Nodup := by
  unfold increment_vault_ref_in_tx at h
  by_cases htrim : rustTrim k = []
  · rw [if_pos htrim] at h
    cases h
    exact hnd
  · rw [if_neg htrim] at h
    cases hp : parse_vault_key k with
    | none => rw [hp] at h; cases h
    | some q =>
      rw [hp] at h
      cases hv : vlookup L k with
      | some r0 =>
        rw [hv] at h
        cases h
        rw [List.map_map]
        have : (VRow.vault_key ∘ fun r => if r.vault_key = k then
            { r with ref_count := r.ref_count + 1, vault_path := p,
                     sha256 := q.1, ext := q.2, updated_at := now } else r) =
            VRow.vault_key := by
          funext r
          by_cases hk : r.vault_key = k <;> simp [Function.comp, hk]
        rw [this]
        exact hnd
      | none =>
        rw [hv] at h
        cases h
        rw [List.map_append]
        simp only [List.map_cons, List.map_nil]
        rw [List.nodup_append]
        refine ⟨hnd, by simp, ?_⟩
        intro k2 hk2 hkeq
        rcases List.mem_map.mp hk2 with ⟨r2, hr2, hk3⟩
        have hkeq2 : k2 = k := by simpa using hkeq
        exact vlookup_not_mem hv r2 hr2 (by rw [hk3, hkeq2])

theorem increment_nonneg {L : List VRow} {k p : RStr} {now : Int} {L2 : List VRow}
    (hpos : ∀ r ∈ L, 0 ≤ r.ref_count)
    (h : increment_vault_ref_in_tx L k p now = .ok L2) :
    ∀ r ∈ L2, 0 ≤ r.ref_count := by
  unfold increment_vault_ref_in_tx at h
  by_cases htrim : rustTrim k = []
  · rw [if_pos htrim] at h
    cases h
    exact hpos
  · rw [if_neg htrim] at h
    cases hp : parse_vault_key k with
    | none => rw [hp] at h; cases h
    | some q =>
      rw [hp] at h
      cases hv : vlookup L k with
      | some r0 =>
        rw [hv] at h
        cases h
        intro r hr
        rcases List.mem_map.mp hr with ⟨r1, hr1, hr2⟩
        have := hpos r1 hr1
        by_cases hk : r1.vault_key = k
        · rw [← hr2, if_pos hk]
          simp only
          omega
        · rw [← hr2, if_neg hk]
          exact this
      | none =>
        rw [hv] at h
        cases h
        intro r hr
        rcases List.mem_append.mp hr with hr | hr
        · exact hpos r hr
        · have : r = ⟨k, p, q.1, q.2, 0, 1, now, now⟩ := by simpa using hr
          rw [this]
          norm_num

theorem decrement_refCountD_self {L : List VRow} {k : RStr} {b now : Int}
    (htrim : rustTrim k ≠ []) :
    refCountD (decrement_vault_ref_in_tx L k b now).1 k =
      max (refCountD L k - max b 0) 0 := by
  cases hv : vlookup L k with
  | none =>
    rw [(decrement_contract L k b now).2.1 htrim hv]
    rw [refCountD, hv]
    simp
  | some r =>
    have h := ((decrement_contract L k b now).2.2 htrim r hv).1
    rw [h, refCountD, hv]
    rfl

theorem decrement_refCountD_other {L : List VRow} {k k2 : RStr} {b now : Int}
    (hne : k2 ≠ k) :
    refCountD (decrement_vault_ref_in_tx L k b now).1 k2 = refCountD L k2 := by
  by_cases htrim : rustTrim k = []
  · rw [(decrement_contract L k b now).1 htrim]
  · cases hv : vlookup L k with
    | none => rw [(decrement_contract L k b now).2.1 htrim hv]
    | some r =>
      have h := ((decrement_contract L k b now).2.2 htrim r hv).2.2.2 k2 hne
      rw [refCountD, h, refCountD]

theorem decrement_nonneg {L : List VRow} {k : RStr} {b now : Int}
    (hpos : ∀ r ∈ L, 0 ≤ r.ref_count) :
    ∀ r ∈ (decrement_vault_ref_in_tx L k b now).1, 0 ≤ r.ref_count := by
  by_cases htrim : rustTrim k = []
  · simpa [decrement_vault_ref_in_tx, htrim] using hpos
  · simp only [decrement_vault_ref_in_tx, if_neg htrim]
    intro r hr
    rcases List.mem_map.mp hr with ⟨r1, hr1, hr2⟩
    by_cases hk : r1.vault_key = k
    · rw [← hr2, if_pos hk]
      simp only
      split <;> [skip; omega]
      have := hpos r1 hr1
      omega
    · rw [← hr2, if_neg hk]
      exact hpos r1 hr1

theorem decrement_keys_nodup {L : List VRow} {k : RStr} {b now : Int}
    (hnd : (L.map VRow.vault_key).Nodup) :
    (((decrement_vault_ref_in_tx L k b now).1).map VRow.vault_key).Nodup := by
  rw [decrement_keys]
  exact hnd

theorem foldDec_refCountD_not_mem (g : RStr → Int) (now : Int) :
    ∀ (keys : List RStr) (L : List VRow) (k : RStr), k ∉ keys →
      refCountD (keys.foldl (fun led k2 =>
        (decrement_vault_ref_in_tx led k2 (g k2) now).1) L) k = refCountD L k := by
  intro keys
  induction keys with
  | nil => intro L k _; rfl
  | cons k0 rest ih =>
    intro L k hk
    rw [List.foldl_cons]
    rw [ih _ k (fun h => hk (List.mem_cons_of_mem _ h))]
    exact decrement_refCountD_other (fun h => hk (h ▸ List.mem_cons_self k0 rest))

theorem foldDec_refCountD_mem (g : RStr → Int) (now : Int) :
    ∀ (keys : List RStr) (L : List VRow) (k : RStr), keys.Nodup → k ∈ keys →
      rustTrim k ≠ [] →
      refCountD (keys.foldl (fun led k2 =>
        (decrement_vault_ref_in_tx led k2 (g k2) now).1) L) k =
        max (refCountD L k - max (g k) 0) 0 := by
  intro keys
  induction keys with
  | nil => intro L k _ hk; simp at hk
  | cons k0 rest ih =>
    intro L k hnd hk htrim
    rw [List.foldl_cons]
    rcases List.mem_cons.mp hk with rfl | hk2
    · rw [foldDec_refCountD_not_mem g now rest _ k (List.nodup_cons.mp hnd).1]
      exact decrement_refCountD_self htrim
    · rw [ih _ k (List.nodup_cons.mp hnd).2 hk2 htrim]
      have hne : k ≠ k0 := by
        intro he
        exact (List.nodup_cons.mp hnd).1 (he ▸ hk2)
      rw [decrement_refCountD_other hne]

theorem foldDec_nonneg (g : RStr → Int) (now : Int) :
    ∀ (keys : List RStr) (L : List VRow), (∀ r ∈ L, 0 ≤ r.ref_count) →
      ∀ r ∈ keys.foldl (fun led k2 =>
        (decrement_vault_ref_in_tx led k2 (g k2) now).1) L, 0 ≤ r.ref_count := by
  intro keys
  induction keys with
  | nil => intro L h; exact h
  | cons k0 rest ih =>
    intro L h
    rw [List.foldl_cons]
    exact ih _ (decrement_nonneg h)

theorem ilookup_mem {items : List Item} {item_id : RStr} {i : Item}
    (h : ilookup items item_id = some i) : i ∈ items := by
  unfold ilookup at h
  exact List.mem_of_find?_eq_some h

theorem ilookup_id {items : List Item} {item_id : RStr} {i : Item}
    (h : ilookup items item_id = some i) : i.id = item_id := by
  induction items with
  | nil => simp [ilookup] at h
  | cons i0 rest ih =>
    unfold ilookup at h ih
    rcases Decidable.em (i0.id = item_id) with hk | hk
    · rw [List.find?_cons_of_pos _ (by simpa using hk)] at h
      cases h
      exact hk
    · rw [List.find?_cons_of_neg _ (by simpa using hk)] at h
      exact ih h

theorem ilookup_none {items : List Item} {item_id : RStr}
    (h : ilookup items item_id = none) : ∀ i ∈ items, i.id ≠ item_id := by
  intro i hi
  unfold ilookup at h
  have := List.find?_eq_none.mp h i hi
  simpa using this

theorem ilookup_self_of_nodup {items : List Item} (hnd : (items.map Item.id).Nodup)
    {i : Item} (hi : i ∈ items) : ilookup items i.id = some i := by
  induction items with
  | nil => simp at hi
  | cons i0 rest ih =>
    rcases List.mem_cons.mp hi with rfl | hi2
    · unfold ilookup
      rw [List.find?_cons_of_pos _ (by simp)]
    · have hne : i.id ≠ i0.id := by
        intro he
        exact (List.nodup_cons.mp hnd).1 (he ▸ List.mem_map.mpr ⟨i, hi2, rfl⟩)
      unfold ilookup
      rw [List.find?_cons_of_neg _ (by simpa using fun he => hne he.symm)]
      exact ih (List.nodup_cons.mp hnd).2 hi2

theorem length_filter_and_split {α : Type} (p q r : α → Bool)
    (hdisj : ∀ a, ¬(q a = true ∧ r a = true)) :
    ∀ l : List α, (l.filter (fun a => p a && (q a || r a))).length =
      (l.filter (fun a => p a && q a)).length + (l.filter (fun a => p a && r a)).length := by
  intro l
  induction l with
  | nil => rfl
  | cons a rest ih =>
    simp only [List.filter_cons]
    by_cases hp : p a = true
    · by_cases hq : q a = true
      · have hr : r a = false := by
          rcases Decidable.em (r a = true) with h | h
          · exact absurd ⟨hq, h⟩ (hdisj a)
          · simpa using h
        simp [hp, hq, hr, ih]
        omega
      · by_cases hr : r a = true
        · simp [hp, (by simpa using hq : q a = false), hr, ih]
          omega
        · simp [hp, (by simpa using hq : q a = false), (by simpa using hr : r a = false), ih]
    · simp [(by simpa using hp : p a = false), ih]

theorem length_filter_partition {α : Type} (p q : α → Bool) :
    ∀ l : List α, (l.filter p).length =
      (l.filter (fun a => p a && q a)).length + (l.filter (fun a => p a && !q a)).length := by
  intro l
  induction l with
  | nil => rfl
  | cons a rest ih =>
    simp only [List.filter_cons]
    by_cases hp : p a = true
    · by_cases hq : q a = true
      · simp [hp, hq, ih]
        omega
      · simp [hp, (by simpa using hq : q a = false), ih]
        omega
    · simp [(by simpa using hp : p a = false), ih]

theorem count_single {items : List Item} (hnd : (items.map Item.id).Nodup)
    (k id0 : RStr) :
    ((items.filter (fun i => decide (i.vault_key = k) && decide (i.id = id0))).length : Int) =
      (match ilookup items id0 with
        | some it => if it.vault_key = k then 1 else 0
        | none => 0) := by
  induction items with
  | nil => rfl
  | cons i0 rest ih =>
    have ihr := ih (List.nodup_cons.mp hnd).2
    by_cases hid : i0.id = id0
    · have hrest : (rest.filter (fun i => decide (i.vault_key = k) && decide (i.id = id0))).length = 0 := by
        rw [List.length_eq_zero, List.filter_eq_nil_iff]
        intro i hi hdec
        simp only [Bool.and_eq_true, decide_eq_true_eq] at hdec
        exact (List.nodup_cons.mp hnd).1
          (hid ▸ hdec.2 ▸ List.mem_map.mpr ⟨i, hi, rfl⟩)
      have hfind : ilookup (i0 :: rest) id0 = some i0 := by
        unfold ilookup
        rw [List.find?_cons_of_pos _ (by simpa using hid)]
      rw [hfind]
      simp only [List.filter_cons]
      by_cases hk : i0.vault_key = k
      · simp [hk, hid, hrest]
      · simp [hk, hid, hrest]
    · have hfind : ilookup (i0 :: rest) id0 = ilookup rest id0 := by
        unfold ilookup
        rw [List.find?_cons_of_neg _ (by simpa using hid)]
      rw [hfind, ← ihr]
      simp only [List.filter_cons]
      simp [hid]

theorem delete_counts_cons (items : List Item) (id0 : RStr) (rest : List RStr) (k : RStr) :
    delete_counts items (id0 :: rest) k =
      (match ilookup items id0 with
        | some it => if it.vault_key = k then 1 else 0
        | none => 0) + delete_counts items rest k := by
  unfold delete_counts
  rw [List.filter_cons]
  cases hl : ilookup items id0 with
  | none => simp [hl]
  | some it =>
    by_cases hk : it.vault_key = k
    · simp [hl, hk]
      omega
    · simp [hl, hk]

theorem delete_counts_eq {items : List Item} (hnd : (items.map Item.id).Nodup) :
    ∀ (ids : List RStr), ids.Nodup → ∀ k,
      delete_counts items ids k =
        ((items.filter (fun i => decide (i.vault_key = k) && decide (i.id ∈ ids))).length : Int) := by
  intro ids
  induction ids with
  | nil =>
    intro _ k
    simp [delete_counts]
  | cons id0 rest ih =>
    intro hndids k
    rw [delete_counts_cons, ih (List.nodup_cons.mp hndids).2 k]
    have hcongr : items.filter (fun i => decide (i.vault_key = k) && decide (i.id ∈ id0 :: rest)) =
        items.filter (fun i => decide (i.vault_key = k) &&
          (decide (i.id = id0) || decide (i.id ∈ rest))) := by
      apply List.filter_congr
      intro i _
      have : decide (i.id ∈ id0 :: rest) = (decide (i.id = id0) || decide (i.id ∈ rest)) := by
        by_cases h1 : i.id = id0
        · simp [h1]
        · by_cases h2 : i.id ∈ rest <;> simp [h1, h2]
      rw [this]
    rw [hcongr]
    have hsplit := length_filter_and_split (fun i : Item => decide (i.vault_key = k))
      (fun i : Item => decide (i.id = id0)) (fun i : Item => decide (i.id ∈ rest))
      (fun i => by
        rintro ⟨h1, h2⟩
        simp only [decide_eq_true_eq] at h1 h2
        exact (List.nodup_cons.mp hndids).1 (h1 ▸ h2)) items
    rw [hsplit]
    rw [← count_single hnd k id0]
    push_cast
    ring

theorem itemCount_delete_split {items : List Item} (hnd : (items.map Item.id).Nodup)
    {ids : List RStr} (hndids : ids.Nodup) (k : RStr) :
    (itemCount items k : Int) =
      (itemCount (items.filter (fun i => decide (i.id ∉ ids))) k : Int) +
        delete_counts items ids k := by
  rw [delete_counts_eq hnd ids hndids k]
  unfold itemCount
  rw [List.filter_filter]
  have hcongr : items.filter (fun i => decide (i.vault_key = k) && decide (i.id ∉ ids)) =
      items.filter (fun i => decide (i.vault_key = k) && !decide (i.id ∈ ids)) := by
    apply List.filter_congr
    intro i _
    by_cases h : i.id ∈ ids <;> simp [h]
  rw [hcongr]
  have := length_filter_partition (fun i : Item => decide (i.vault_key = k))
    (fun i : Item => decide (i.id ∈ ids)) items
  rw [this]
  push_cast
  ring

theorem mem_delete_key_list {items : List Item} {ids : List RStr} {id0 : RStr} {it : Item}
    (hid : id0 ∈ ids) (hit : ilookup items id0 = some it)
    (htrim : rustTrim it.vault_key ≠ []) :
    it.vault_key ∈ delete_key_list items ids := by
  unfold delete_key_list
  rw [List.mem_dedup]
  refine List.mem_filterMap.mpr ⟨id0, hid, ?_⟩
  rw [hit]
  simp [htrim]

theorem delete_key_list_trim {items : List Item} {ids : List RStr} :
    ∀ k ∈ delete_key_list items ids, rustTrim k ≠ [] := by
  intro k hk
  unfold delete_key_list at hk
  rw [List.mem_dedup] at hk
  rcases List.mem_filterMap.mp hk with ⟨id0, _, hbind⟩
  rcases Option.bind_eq_some.mp hbind with ⟨it, _, hif⟩
  by_cases htrim : rustTrim it.vault_key = []
  · rw [if_pos htrim] at hif
    cases hif
  · rw [if_neg htrim] at hif
    cases hif
    exact htrim

theorem delete_counts_zero {items : List Item} {ids : List RStr} {k : RStr}
    (htrim : rustTrim k ≠ []) (hnot : k ∉ delete_key_list items ids) :
    delete_counts items ids k = 0 := by
  unfold delete_counts
  rw [show (ids.filter (fun i => match ilookup items i with
      | some it => decide (it.vault_key = k)
      | none => false)) = [] from ?_]
  · rfl
  · rw [List.filter_eq_nil_iff]
    intro id0 hid0 hdec
    cases hit : ilookup items id0 with
    | none => rw [hit] at hdec; cases hdec
    | some it =>
      rw [hit] at hdec
      have hk : it.vault_key = k := by simpa using hdec
      rw [← hk] at htrim hnot
      exact hnot (mem_delete_key_list hid0 hit htrim)

theorem parse_some_trim {k : RStr} (h : (parse_vault_key k).isSome) : rustTrim k ≠ [] := by
  intro htrim
  unfold parse_vault_key at h
  rw [htrim] at h
  simp [lastIndexOf] at h

theorem addBackfillGroup_keys {acc : List (RStr × RStr × Int)} {i : Item} {k : RStr}
    (h : k ∈ (addBackfillGroup acc i).map (fun g => g.1)) :
    k ∈ acc.map (fun g => g.1) ∨ (k = i.vault_key ∧ i.vault_key ≠ []) := by
  unfold addBackfillGroup at h
  by_cases hk : i.vault_key = []
  · rw [if_pos hk] at h
    exact Or.inl h
  · rw [if_neg hk] at h
    by_cases hfound : ((acc.find? (fun g => decide (g.1 = i.vault_key))).isSome : Prop)
    · rw [if_pos hfound] at h
      rw [List.map_map] at h
      left
      rcases List.mem_map.mp h with ⟨g, hg, hgk⟩
      refine List.mem_map.mpr ⟨g, hg, ?_⟩
      rw [← hgk]
      by_cases hgi : g.1 = i.vault_key <;> simp [Function.comp, hgi]
    · rw [if_neg hfound] at h
      rw [List.map_append] at h
      rcases List.mem_append.mp h with h | h
      · exact Or.inl h
      · right
        have : k = i.vault_key := by simpa using h
        exact ⟨this, hk⟩

theorem backfill_group_key_mem :
    ∀ (items : List Item) (acc : List (RStr × RStr × Int)) (g : RStr × RStr × Int),
      g ∈ items.foldl addBackfillGroup acc →
      g.1 ∈ acc.map (fun x => x.1) ∨ ∃ i ∈ items, i.vault_key = g.1 ∧ i.vault_key ≠ [] := by
  intro items
  induction items with
  | nil => intro acc g hg; exact Or.inl (List.mem_map.mpr ⟨g, hg, rfl⟩)
  | cons i0 rest ih =>
    intro acc g hg
    rw [List.foldl_cons] at hg
    rcases ih (addBackfillGroup acc i0) g hg with h | ⟨i, hi, hk⟩
    · rcases addBackfillGroup_keys h with h | ⟨hk, hne⟩
      · exact Or.inl h
      · exact Or.inr ⟨i0, List.mem_cons_self i0 rest, hk.symm, hne⟩
    · exact Or.inr ⟨i, List.mem_cons_of_mem _ hi, hk⟩

theorem itemCount_pos_of_mem {items : List Item} {i : Item} (hi : i ∈ items) :
    0 < itemCount items i.vault_key := by
  unfold itemCount
  have : i ∈ items.filter (fun j => decide (j.vault_key = i.vault_key)) :=
    List.mem_filter.mpr ⟨hi, by simp⟩
  exact List.length_pos.mpr (fun he => by rw [he] at this; simp at this)

theorem backfill_id {st : St} (now : Int) (hinv : LedgerInv st) :
    backfill_vault_refs_if_needed st now = st := by
  obtain ⟨h1, h2, h3, h4, h5⟩ := hinv
  unfold backfill_vault_refs_if_needed
  by_cases hled : st.ledger = []
  · rw [if_pos hled]
    have hnone : ∀ g ∈ st.items.foldl addBackfillGroup [], parse_vault_key g.1 = none := by
      intro g hg
      rcases backfill_group_key_mem st.items [] g hg with h | ⟨i, hi, hk, hne⟩
      · simp at h
      · cases hp : parse_vault_key g.1 with
        | none => rfl
        | some q =>
          have hps : (parse_vault_key g.1).isSome := by rw [hp]; rfl
          have htrim : rustTrim g.1 ≠ [] := parse_some_trim hps
          have hcons := h5 g.1 htrim hps
          rw [hled] at hcons
          have : refCountD [] g.1 = 0 := rfl
          rw [this] at hcons
          have hpos := itemCount_pos_of_mem hi
          rw [hk] at hpos
          omega
    have hfold : ∀ (groups : List (RStr × RStr × Int)),
        (∀ g ∈ groups, parse_vault_key g.1 = none) →
        groups.foldl (fun led g =>
          match parse_vault_key g.1 with
          | none => led
          | some p =>
            (led.filter (fun r => decide (r.vault_key ≠ g.1))) ++
              [⟨g.1, g.2.1, p.1, p.2, 0, g.2.2, now, now⟩]) st.ledger = st.ledger := by
      intro groups
      induction groups with
      | nil => intro _; rfl
      | cons g0 rest ihg =>
        intro hall
        rw [List.foldl_cons]
        rw [show (match parse_vault_key g0.1 with
          | none => st.ledger
          | some p =>
            (st.ledger.filter (fun r => decide (r.vault_key ≠ g0.1))) ++
              [⟨g0.1, g0.2.1, p.1, p.2, 0, g0.2.2, now, now⟩]) = st.ledger from by
            rw [hall g0 (List.mem_cons_self g0 rest)]]
        exact ihg (fun g hg => hall g (List.mem_cons_of_mem _ hg))
    dsimp only
    split
    · rfl
    · rw [hfold _ hnone]
  · rw [if_neg hled]

theorem cleanup_inv {o : FsOracle} {st : St} (hinv : LedgerInv st) :
    LedgerInv (cleanup_zero_ref_vault_files o st) := by
  obtain ⟨h1, h2, h3, h4, h5⟩ := hinv
  by_cases hp : st.ledger.filter (fun r2 => decide (r2.ref_count ≤ 0)) = []
  · simp only [LedgerInv, DbInv, cleanup_zero_ref_vault_files, hp]
    exact ⟨h1, h2, h3, h4, h5⟩
  · simp only [LedgerInv, DbInv, cleanup_zero_ref_vault_files, if_neg hp]
    refine ⟨h1, List.Nodup.sublist (List.Sublist.map _ (List.filter_sublist _)) h2, h3,
      fun r hr => h4 r (List.mem_of_mem_filter hr), ?_⟩
    intro k htrim hps
    have hkswept : ∀ r ∈ st.ledger, r.vault_key = k →
        k ∈ (sweep_rows o ((st.ledger.filter (fun r2 => decide (r2.ref_count ≤ 0))).map
          (fun r2 => (r2.vault_key, r2.sha256, r2.ext)))
          (ensure_storage_root_internal st.fs) []).2 → r.ref_count ≤ 0 := by
      intro r hr hkey hk
      rcases sweep_rows_keys o _ _ _ k hk with hin | ⟨en, hen, hk2⟩
      · simp at hin
      · rcases List.mem_map.mp hen with ⟨r2, hr2, hen2⟩
        have hr2l := (List.mem_filter.mp hr2).1
        have hr2c := (List.mem_filter.mp hr2).2
        have hr2k : r2.vault_key = k := by rw [← hk2, ← hen2]
        have : r2 = r := nodup_key_eq h2 hr2l hr (by rw [hr2k, hkey])
        subst this
        simpa using hr2c
    rw [refCountD, vlookup_filter_of_nodup h2]
    cases hv : vlookup st.ledger k with
    | none =>
      have := h5 k htrim hps
      rw [refCountD, hv] at this
      simpa using this
    | some r =>
      dsimp only
      split
      · next hpred =>
        have := h5 k htrim hps
        rw [refCountD, hv] at this
        exact this
      · next hpred =>
        have hkin : k ∈ (sweep_rows o ((st.ledger.filter
            (fun r2 => decide (r2.ref_count ≤ 0))).map
            (fun r2 => (r2.vault_key, r2.sha256, r2.ext)))
            (ensure_storage_root_internal st.fs) []).2 := by
          have hkey := vlookup_key hv
          rw [← hkey]
          by_cases hin : r.vault_key ∈ (sweep_rows o ((st.ledger.filter
              (fun r2 => decide (r2.ref_count ≤ 0))).map
              (fun r2 => (r2.vault_key, r2.sha256, r2.ext)))
              (ensure_storage_root_internal st.fs) []).2
          · exact hin
          · exact absurd (by simpa using hin) hpred
        have hle := hkswept r (vlookup_mem hv) (vlookup_key hv) hkin
        have hge := h4 r (vlookup_mem hv)
        have hzero : r.ref_count = 0 := by omega
        have h6 := h5 k htrim hps
        rw [refCountD, hv] at h6
        simp only [Option.map_some', Option.getD_some] at h6
        rw [hzero] at h6
        simp only [Option.map_none', Option.getD_none]
        omega

theorem init_db_inv (o : FsOracle) {st : St} (now : Int) (hinv : LedgerInv st) :
    LedgerInv (init_db o st now) := by
  unfold init_db
  rw [backfill_id now hinv]
  exact cleanup_inv hinv

theorem itemCount_append_single (items : List Item) (i : Item) (k : RStr) :
    itemCount (items ++ [i]) k = itemCount items k + (if i.vault_key = k then 1 else 0) := by
  unfold itemCount
  rw [List.filter_append, List.length_append]
  by_cases hk : i.vault_key = k <;> simp [hk]

theorem insert_item_in_tx_inv {items : List Item} {ledger : List VRow} {input : Item}
    {now : Int} {items2 : List Item} {ledger2 : List VRow}
    (hinv : DbInv items ledger)
    (h : insert_item_in_tx items ledger input now = .ok (items2, ledger2)) :
    DbInv items2 ledger2 := by
  obtain ⟨h1, h2, h3, h4, h5⟩ := hinv
  unfold insert_item_in_tx at h
  by_cases hdup : ((ilookup items input.id).isSome : Prop)
  · rw [if_pos hdup] at h
    cases h
  · rw [if_neg hdup] at h
    have hnonedup : ilookup items input.id = none := Option.not_isSome_iff_eq_none.mp hdup
    have hfresh : ∀ i ∈ items, i.id ≠ input.id := ilookup_none hnonedup
    cases hinc : increment_vault_ref_in_tx ledger input.vault_key input.vault_path now with
    | error e => rw [hinc] at h; cases h
    | ok L2 =>
      rw [hinc] at h
      cases h
      have hids : ((items ++ [input]).map Item.id).Nodup := by
        rw [List.map_append]
        rw [List.nodup_append]
        refine ⟨h1, by simp, ?_⟩
        intro x hx hmem
        rcases List.mem_map.mp hx with ⟨i, hi, hix⟩
        have : x = input.id := by simpa using hmem
        exact hfresh i hi (by rw [← hix] at this; exact this)
      have hkeys3 : ∀ i ∈ items ++ [input],
          rustTrim i.vault_key = [] ∨ (parse_vault_key i.vault_key).isSome := by
        intro i hi
        rcases List.mem_append.mp hi with hi | hi
        · exact h3 i hi
        · have hii : i = input := by simpa using hi
          subst hii
          by_cases htr : rustTrim i.vault_key = []
          · exact Or.inl htr
          · right
            unfold increment_vault_ref_in_tx at hinc
            rw [if_neg htr] at hinc
            cases hp : parse_vault_key i.vault_key with
            | none => rw [hp] at hinc; cases hinc
            | some q => exact rfl
      refine ⟨hids, increment_keys_nodup h2 hinc, hkeys3, increment_nonneg h4 hinc, ?_⟩
      intro k htrim hps
      by_cases htr : rustTrim input.vault_key = []
      · have heq := (increment_contract ledger input.vault_key input.vault_path now).1 htr
        rw [heq] at hinc
        cases hinc
        rw [itemCount_append_single]
        have hik : input.vault_key ≠ k := by
          intro he
          rw [he] at htr
          exact htrim htr
        rw [if_neg hik]
        simpa using h5 k htrim hps
      · cases hp : parse_vault_key input.vault_key with
        | none =>
          have heq := (increment_contract ledger input.vault_key input.vault_path now).2.1 htr hp
          rw [heq] at hinc
          cases hinc
        | some q =>
          obtain ⟨qa, qb⟩ := q
          obtain ⟨L2', hok, hcount, _, hothers⟩ :=
            (increment_contract ledger input.vault_key input.vault_path now).2.2 qa qb htr hp
          rw [hok] at hinc
          cases hinc
          rw [itemCount_append_single]
          by_cases hk : input.vault_key = k
          · subst hk
            rw [if_pos rfl]
            rw [hcount, h5 input.vault_key htrim hps]
            push_cast
            ring
          · rw [if_neg hk]
            rw [refCountD, hothers k (fun he => hk he.symm), ← refCountD]
            simpa using h5 k htrim hps

theorem insert_item_inv {o : FsOracle} {st : St} {input : Item} {now : Int}
    (hinv : LedgerInv st) : LedgerInv (insert_item o st input now).1 := by
  have hst1 := init_db_inv o now hinv
  simp only [insert_item]
  cases h : insert_item_in_tx (init_db o st now).items (init_db o st now).ledger input now with
  | error e => exact hst1
  | ok p => exact insert_item_in_tx_inv hst1 (by rw [h])

theorem foldl_insert_inv {now : Int} :
    ∀ (inputs : List Item) (p : List Item × List VRow), DbInv p.1 p.2 →
      ∀ p2, inputs.foldlM (fun (p : List Item × List VRow) input =>
        insert_item_in_tx p.1 p.2 input now) p = .ok p2 → DbInv p2.1 p2.2 := by
  intro inputs
  induction inputs with
  | nil =>
    intro p hp p2 h
    cases h
    exact hp
  | cons i0 rest ih =>
    intro p hp p2 h
    rw [List.foldlM_cons] at h
    cases h0 : insert_item_in_tx p.1 p.2 i0 now with
    | error e =>
      rw [h0] at h
      cases h
    | ok p1 =>
      rw [h0] at h
      exact ih p1 (insert_item_in_tx_inv hp (by rw [h0])) p2 h

theorem insert_items_batch_inv {o : FsOracle} {st : St} {inputs : List Item} {now : Int}
    (hinv : LedgerInv st) : LedgerInv (insert_items_batch o st inputs now).1 := by
  unfold insert_items_batch
  split
  · exact hinv
  · have hst1 := init_db_inv o now hinv
    dsimp only
    cases h : inputs.foldlM (fun (p : List Item × List VRow) input =>
        insert_item_in_tx p.1 p.2 input now)
        ((init_db o st now).items, (init_db o st now).ledger) with
    | error e => exact hst1
    | ok p =>
      dsimp only
      exact show DbInv p.1 p.2 from
        foldl_insert_inv inputs ((init_db o st now).items, (init_db o st now).ledger)
          (show DbInv (init_db o st now).items (init_db o st now).ledger from hst1) p h

theorem delete_items_tx_inv (st : St) (ids : List RStr) (now : Int)
    (hinv : LedgerInv st) (hids : ids.Nodup) :
    DbInv (delete_items_tx st ids now).1.items (delete_items_tx st ids now).1.ledger := by
  obtain ⟨h1, h2, h3, h4, h5⟩ := hinv
  have h_items : (delete_items_tx st ids now).1.items =
      st.items.filter (fun i => decide (i.id ∉ ids)) := rfl
  have h_ledger : (delete_items_tx st ids now).1.ledger =
      (delete_key_list st.items ids).foldl (fun led k =>
        (decrement_vault_ref_in_tx led k (delete_counts st.items ids k) now).1) st.ledger := rfl
  rw [h_items, h_ledger]
  refine ⟨List.Nodup.sublist (List.Sublist.map _ (List.filter_sublist _)) h1, ?_,
    fun i hi => h3 i (List.mem_of_mem_filter hi), ?_, ?_⟩
  · rw [foldl_dec_keys (fun k => delete_counts st.items ids k) now]
    exact h2
  · exact foldDec_nonneg (fun k => delete_counts st.items ids k) now _ _ h4
  · intro k htrim hps
    have hsplit := itemCount_delete_split h1 hids k
    by_cases hk : k ∈ delete_key_list st.items ids
    · rw [foldDec_refCountD_mem (fun k2 => delete_counts st.items ids k2) now
        (delete_key_list st.items ids) st.ledger k
        (by unfold delete_key_list; exact List.nodup_dedup _) hk htrim]
      have hm0 : 0 ≤ delete_counts st.items ids k := Int.natCast_nonneg _
      rw [h5 k htrim hps]
      have hc2 : (0 : Int) ≤ (itemCount (st.items.filter (fun i => decide (i.id ∉ ids))) k : Int) :=
        Int.natCast_nonneg _
      omega
    · rw [foldDec_refCountD_not_mem (fun k2 => delete_counts st.items ids k2) now
        (delete_key_list st.items ids) st.ledger k hk]
      rw [h5 k htrim hps]
      have hz := delete_counts_zero htrim hk
      omega

theorem delete_phase_inv {o : FsOracle} {txr : St × List (RStr × RStr × RStr) × Nat}
    (hinv : DbInv txr.1.items txr.1.ledger)
    (hcand : ∀ en ∈ txr.2.1, refCountD txr.1.ledger en.1 = 0 ∧
      itemCount txr.1.items en.1 = 0) :
    DbInv (delete_items_cleanup_phase o txr).1.items
      (delete_items_cleanup_phase o txr).1.ledger := by
  obtain ⟨h1, h2, h3, h4, h5⟩ := hinv
  have h_items : (delete_items_cleanup_phase o txr).1.items = txr.1.items := rfl
  have h_ledger : (delete_items_cleanup_phase o txr).1.ledger =
      txr.1.ledger.filter (fun r => decide (r.vault_key ∉
        (sweep_rows o txr.2.1 (ensure_storage_root_internal txr.1.fs) []).2)) := rfl
  rw [h_items, h_ledger]
  refine ⟨h1, List.Nodup.sublist (List.Sublist.map _ (List.filter_sublist _)) h2, h3,
    fun r hr => h4 r (List.mem_of_mem_filter hr), ?_⟩
  intro k htrim hps
  rw [refCountD, vlookup_filter_of_nodup h2]
  cases hv : vlookup txr.1.ledger k with
  | none =>
    have := h5 k htrim hps
    rw [refCountD, hv] at this
    simpa using this
  | some r =>
    dsimp only
    split
    · next hpred =>
      have := h5 k htrim hps
      rw [refCountD, hv] at this
      exact this
    · next hpred =>
      have hkin : k ∈ (sweep_rows o txr.2.1 (ensure_storage_root_internal txr.1.fs) []).2 := by
        have hkey := vlookup_key hv
        rw [← hkey]
        by_cases hin : r.vault_key ∈
            (sweep_rows o txr.2.1 (ensure_storage_root_internal txr.1.fs) []).2
        · exact hin
        · exact absurd (by simpa using hin) hpred
      rcases sweep_rows_keys o _ _ _ k hkin with hin | ⟨en, hen, hk2⟩
      · simp at hin
      · have hc := hcand en hen
        rw [hk2] at hc
        simp only [Option.map_none', Option.getD_none]
        omega

theorem delete_items_inv {o : FsOracle} {st : St} {ids : List RStr} {now : Int}
    (hinv : LedgerInv st) (hids : ids.Nodup) :
    LedgerInv (delete_items_with_cleanup_internal o st ids now).1 := by
  unfold delete_items_with_cleanup_internal
  split
  · exact hinv
  · have hst1 := init_db_inv o now hinv
    have htx := delete_items_tx_inv (init_db o st now) ids now hst1 hids
    have hcand := fun en hen => delete_items_tx_cand (init_db o st now) ids now en hen
    exact delete_phase_inv htx (fun en hen => ⟨(hcand en hen).1, (hcand en hen).2.1⟩)

theorem head?_dropWhile_not {p : Char → Bool} :
    ∀ {l : RStr} {c : Char}, (l.dropWhile p).head? = some c → p c = false := by
  intro l
  induction l with
  | nil => intro c hc; simp at hc
  | cons x xs ih =>
    intro c hc
    rw [List.dropWhile_cons] at hc
    by_cases hx : p x = true
    · rw [if_pos hx] at hc
      exact ih hc
    · rw [if_neg hx] at hc
      simp at hc
      rw [← hc]
      simpa using hx

theorem getLast?_dropWhile {p : Char → Bool} {l : RStr} {c : Char}
    (h : (l.dropWhile p).getLast? = some c) : l.getLast? = some c := by
  rcases List.dropWhile_suffix p (l := l) with ⟨t, ht⟩
  rw [← ht]
  rw [List.getLast?_append_of_ne_nil]
  · exact h
  · intro hnil
    rw [hnil] at h
    simp at h

theorem rustTrim_head {l : RStr} {c : Char} (h : (rustTrim l).head? = some c) :
    rustIsWhitespace c = false :=
  head?_dropWhile_not h

theorem rustTrim_last {l : RStr} {c : Char} (h : (rustTrim l).getLast? = some c) :
    rustIsWhitespace c = false := by
  unfold rustTrim trimStart at h
  have h2 := getLast?_dropWhile h
  unfold trimEnd at h2
  rw [List.getLast?_reverse] at h2
  exact head?_dropWhile_not h2

theorem rustTrim_idem (l : RStr) : rustTrim (rustTrim l) = rustTrim l :=
  trim_eq_self (fun _ hc => rustTrim_head hc) (fun _ hc => rustTrim_last hc)

theorem itemCount_cons (i : Item) (rest : List Item) (k : RStr) :
    itemCount (i :: rest) k = (if i.vault_key = k then 1 else 0) + itemCount rest k := by
  unfold itemCount
  rw [List.filter_cons]
  by_cases hk : i.vault_key = k <;> simp [hk] <;> omega

theorem itemCount_map_update {items : List Item} (hnd : (items.map Item.id).Nodup)
    {item_id : RStr} {cur : Item} (hcur : ilookup items item_id = some cur)
    (g : Item → Item) (k : RStr) :
    itemCount (items.map (fun i => if i.id = item_id then g i else i)) k +
      (if cur.vault_key = k then 1 else 0) =
    itemCount items k + (if (g cur).vault_key = k then 1 else 0) := by
  induction items with
  | nil => simp [ilookup] at hcur
  | cons i0 rest ih =>
    by_cases hid : i0.id = item_id
    · have hcur0 : cur = i0 := by
        unfold ilookup at hcur
        rw [List.find?_cons_of_pos _ (by simpa using hid)] at hcur
        cases hcur
        rfl
      subst hcur0
      have hrest_id : ∀ i ∈ rest, i.id ≠ item_id := by
        intro i hi he
        exact (List.nodup_cons.mp hnd).1 (hid ▸ he ▸ List.mem_map.mpr ⟨i, hi, rfl⟩)
      have hmaprest : rest.map (fun i => if i.id = item_id then g i else i) = rest :=
        map_eq_self_of (fun i hi => if_neg (hrest_id i hi))
      rw [List.map_cons, if_pos hid, hmaprest, itemCount_cons, itemCount_cons]
      by_cases hg1 : (g cur).vault_key = k <;> by_cases hg2 : cur.vault_key = k <;>
        simp [hg1, hg2] <;> omega
    · have hcur2 : ilookup rest item_id = some cur := by
        unfold ilookup at hcur ⊢
        rw [List.find?_cons_of_neg _ (by simpa using hid)] at hcur
        exact hcur
      have := ih (List.nodup_cons.mp hnd).2 hcur2
      rw [List.map_cons, if_neg hid, itemCount_cons, itemCount_cons]
      omega


theorem finalize_core_inv {items : List Item} {L1 L2 : List VRow}
    {item_id vk vp : RStr} {now : Int} {cur : Item}
    (h1 : (items.map Item.id).Nodup)
    (h3 : ∀ i ∈ items, rustTrim i.vault_key = [] ∨ (parse_vault_key i.vault_key).isSome)
    (hcur : ilookup items item_id = some cur)
    (hL1nodup : (L1.map VRow.vault_key).Nodup)
    (hL1nonneg : ∀ r ∈ L1, 0 ≤ r.ref_count)
    (hcons1 : ∀ k, rustTrim k ≠ [] → (parse_vault_key k).isSome →
      refCountD L1 k = (itemCount items k : Int) - (if cur.vault_key = k then 1 else 0))
    (hinc : increment_vault_ref_in_tx L1 (rustTrim vk) (rustTrim vp) now = .ok L2)
    (hnk : rustTrim vk ≠ [])
    (hkeq : cur.vault_key ≠ rustTrim vk) :
    DbInv (items.map (fun i => if i.id = item_id then
      { i with vault_key := rustTrim vk, vault_path := rustTrim vp } else i)) L2 := by
  have htrimnk : rustTrim (rustTrim vk) ≠ [] := by rw [rustTrim_idem]; exact hnk
  have hidmap : (items.map (fun i => if i.id = item_id then
      { i with vault_key := rustTrim vk, vault_path := rustTrim vp } else i)).map Item.id =
      items.map Item.id := by
    rw [List.map_map]
    apply List.map_congr_left
    intro i _
    by_cases hi : i.id = item_id <;> simp [Function.comp, hi]
  cases hp : parse_vault_key (rustTrim vk) with
  | none =>
    rw [(increment_contract L1 (rustTrim vk) (rustTrim vp) now).2.1 htrimnk hp] at hinc
    cases hinc
  | some q =>
    obtain ⟨qa, qb⟩ := q
    obtain ⟨L2', hok, hcount, _, hothers⟩ :=
      (increment_contract L1 (rustTrim vk) (rustTrim vp) now).2.2 qa qb htrimnk hp
    rw [hok] at hinc
    cases hinc
    refine ⟨by rw [hidmap]; exact h1, increment_keys_nodup hL1nodup hok, ?_,
      increment_nonneg hL1nonneg hok, ?_⟩
    · intro j hj
      rcases List.mem_map.mp hj with ⟨i, hi, hji⟩
      by_cases hii : i.id = item_id
      · rw [if_pos hii] at hji
        rw [← hji]
        right
        rw [hp]
        rfl
      · rw [if_neg hii] at hji
        rw [← hji]
        exact h3 i hi
    · intro k htrim hps
      have hmapcount := itemCount_map_update h1 hcur
        (fun i => { i with vault_key := rustTrim vk, vault_path := rustTrim vp }) k
      simp only at hmapcount
      by_cases hknk : k = rustTrim vk
      · rw [hknk] at hmapcount htrim hps ⊢
        rw [if_neg hkeq, if_pos rfl] at hmapcount
        rw [hcount, hcons1 (rustTrim vk) htrim hps, if_neg hkeq]
        omega
      · rw [if_neg (fun he : (rustTrim vk) = k => hknk he.symm)] at hmapcount
        rw [refCountD, hothers k hknk, ← refCountD, hcons1 k htrim hps]
        by_cases hkc : cur.vault_key = k
        · rw [if_pos hkc] at hmapcount
          rw [if_pos hkc]
          have hpos := itemCount_pos_of_mem (ilookup_mem hcur)
          rw [hkc] at hpos
          omega
        · rw [if_neg hkc] at hmapcount
          rw [if_neg hkc]
          omega

theorem finalize_item_import_tx_inv {items : List Item} {ledger : List VRow}
    {item_id vk vp : RStr} {now : Int} {items2 : List Item} {ledger2 : List VRow}
    (hinv : DbInv items ledger)
    (h : finalize_item_import_tx items ledger item_id vk vp now = .ok (items2, ledger2)) :
    DbInv items2 ledger2 := by
  obtain ⟨h1, h2, h3, h4, h5⟩ := hinv
  unfold finalize_item_import_tx at h
  cases hcur : ilookup items item_id with
  | none =>
    rw [hcur] at h
    simp at h
  | some cur =>
    rw [hcur] at h
    dsimp only at h
    by_cases hguard : rustTrim vk = [] ∨ rustTrim vp = []
    · rw [if_pos hguard] at h
      simp at h
    · rw [if_neg hguard] at h
      have hnk : rustTrim vk ≠ [] := fun he => hguard (Or.inl he)
      by_cases hkeq : cur.vault_key = rustTrim vk
      · rw [if_neg (fun hc : rustTrim cur.vault_key ≠ [] ∧ cur.vault_key ≠ rustTrim vk =>
          hc.2 hkeq)] at h
        rw [if_neg (fun hc : cur.vault_key ≠ rustTrim vk => hc hkeq)] at h
        dsimp only at h
        cases h
        have hidmap : (items.map (fun i => if i.id = item_id then
            { i with vault_key := rustTrim vk, vault_path := rustTrim vp } else i)).map Item.id =
            items.map Item.id := by
          rw [List.map_map]
          apply List.map_congr_left
          intro i _
          by_cases hi : i.id = item_id <;> simp [Function.comp, hi]
        refine ⟨by rw [hidmap]; exact h1, h2, ?_, h4, ?_⟩
        · intro j hj
          rcases List.mem_map.mp hj with ⟨i, hi, hji⟩
          by_cases hii : i.id = item_id
          · rw [if_pos hii] at hji
            rw [← hji]
            have := h3 cur (ilookup_mem hcur)
            rw [hkeq] at this
            exact this
          · rw [if_neg hii] at hji
            rw [← hji]
            exact h3 i hi
        · intro k htrim hps
          have hmapcount := itemCount_map_update h1 hcur
            (fun i => { i with vault_key := rustTrim vk, vault_path := rustTrim vp }) k
          simp only at hmapcount
          have heq : itemCount (items.map (fun i => if i.id = item_id then
              { i with vault_key := rustTrim vk, vault_path := rustTrim vp } else i)) k =
              itemCount items k := by
            by_cases hck : cur.vault_key = k
            · rw [if_pos hck, if_pos (hkeq.symm.trans hck : rustTrim vk = k)] at hmapcount
              omega
            · rw [if_neg hck, if_neg (fun he : rustTrim vk = k => hck (hkeq.trans he))]
                at hmapcount
              omega
          rw [heq, h5 k htrim hps]
      · rw [if_pos (show cur.vault_key ≠ rustTrim vk from hkeq)] at h
        by_cases htc : rustTrim cur.vault_key = []
        · rw [if_neg (fun hc : rustTrim cur.vault_key ≠ [] ∧ cur.vault_key ≠ rustTrim vk =>
            hc.1 htc)] at h
          cases hinc : increment_vault_ref_in_tx ledger (rustTrim vk) (rustTrim vp) now with
          | error e =>
            rw [hinc] at h
            simp at h
          | ok L2 =>
            rw [hinc] at h
            dsimp only at h
            cases h
            refine finalize_core_inv h1 h3 hcur h2 h4 ?_ hinc hnk hkeq
            intro k htrim hps
            have hne : ¬(cur.vault_key = k) := by
              intro he
              rw [← he] at htrim
              exact htrim htc
            rw [if_neg hne, h5 k htrim hps]
            omega
        · rw [if_pos (show rustTrim cur.vault_key ≠ [] ∧ cur.vault_key ≠ rustTrim vk from
            ⟨htc, hkeq⟩)] at h
          cases hinc : increment_vault_ref_in_tx
              (decrement_vault_ref_in_tx ledger cur.vault_key 1 now).1
              (rustTrim vk) (rustTrim vp) now with
          | error e =>
            rw [hinc] at h
            simp at h
          | ok L2 =>
            rw [hinc] at h
            dsimp only at h
            cases h
            refine finalize_core_inv h1 h3 hcur (decrement_keys_nodup h2)
              (decrement_nonneg h4) ?_ hinc hnk hkeq
            intro k htrim hps
            by_cases hkc : cur.vault_key = k
            · rw [← hkc] at htrim hps ⊢
              rw [decrement_refCountD_self htc, if_pos rfl,
                h5 cur.vault_key htrim hps]
              have hpos := itemCount_pos_of_mem (ilookup_mem hcur)
              omega
            · rw [decrement_refCountD_other (fun he => hkc he.symm), if_neg hkc,
                h5 k htrim hps]
              omega

theorem finalize_item_import_inv {o : FsOracle} {st : St} {item_id vk vp : RStr} {now : Int}
    (hinv : LedgerInv st) : LedgerInv (finalize_item_import o st item_id vk vp now).1 := by
  have hst1 := init_db_inv o now hinv
  simp only [finalize_item_import]
  cases h : finalize_item_import_tx (init_db o st now).items (init_db o st now).ledger
      item_id vk vp now with
  | error e => exact hst1
  | ok p =>
    exact show DbInv p.1 p.2 from
      finalize_item_import_tx_inv (show DbInv _ _ from hst1) (by rw [h])

theorem reach_inv : ∀ st : St, Reach st → LedgerInv st := by
  intro st h
  induction h with
  | empty fs =>
    refine ⟨by simp, by simp, by simp, by simp, ?_⟩
    intro k _ _
    rfl
  | insert h o input now ih => exact insert_item_inv ih
  | insertBatch h o inputs now ih => exact insert_items_batch_inv ih
  | delete h o ids now hids ih => exact delete_items_inv ih hids
  | finalize h o item_id vk vp now ih => exact finalize_item_import_inv ih

/-- C2 (corrected): ledger conservation.  For every state reached from
the empty store by `insert_item`, `insert_items_batch`,
`delete_items`/`delete_items_with_cleanup` and `finalize_item_import`,
where each delete call receives pairwise-distinct item ids, the recorded
`ref_count` of every non-empty parseable vault key equals the number of
live items rows carrying that key, and no recorded count is negative.
The original claim, quantifying over every id list, fails when a delete
request repeats an id (see `c2_counterexample`). -/
theorem c2_ledger_conservation (st : St) (h : Reach st) :
    (∀ k, rustTrim k ≠ [] → (parse_vault_key k).isSome →
      refCountD st.ledger k = (itemCount st.items k : Int)) ∧
    (∀ r ∈ st.ledger, 0 ≤ r.ref_count) :=
  ⟨(reach_inv st h).2.2.2.2, (reach_inv st h).2.2.2.1⟩

/-- C2 counterexample to the claim as stated: inserting two items that
share the key `a.png` and then deleting one of them with its id repeated
in the request list decrements the key twice, leaving `ref_count = 0`
while one live item still references the key. -/
theorem c2_counterexample :
    refCountD (delete_items_with_cleanup_internal
        ⟨fun _ _ => true, fun _ => true, fun _ _ => true, fun _ => none, fun _ _ => true⟩
        (insert_item
          ⟨fun _ _ => true, fun _ => true, fun _ _ => true, fun _ => none, fun _ _ => true⟩
          (insert_item
            ⟨fun _ _ => true, fun _ => true, fun _ _ => true, fun _ => none, fun _ _ => true⟩
            ⟨[], [], ⟨false, [], [], []⟩⟩
            ⟨("X").toList, ("a.png").toList, ("P").toList⟩ 1).1
          ⟨("Y").toList, ("a.png").toList, ("P").toList⟩ 2).1
        [("X").toList, ("X").toList] 3).1.ledger ("a.png").toList ≠
      (itemCount (delete_items_with_cleanup_internal
        ⟨fun _ _ => true, fun _ => true, fun _ _ => true, fun _ => none, fun _ _ => true⟩
        (insert_item
          ⟨fun _ _ => true, fun _ => true, fun _ _ => true, fun _ => none, fun _ _ => true⟩
          (insert_item
            ⟨fun _ _ => true, fun _ => true, fun _ _ => true, fun _ => none, fun _ _ => true⟩
            ⟨[], [], ⟨false, [], [], []⟩⟩
            ⟨("X").toList, ("a.png").toList, ("P").toList⟩ 1).1
          ⟨("Y").toList, ("a.png").toList, ("P").toList⟩ 2).1
        [("X").toList, ("X").toList] 3).1.items ("a.png").toList : Int) := by
  decide

/-- Witness for `c2_ledger_conservation` at the state reached by one
insert from the empty store. -/
theorem c2_witness :
    (∀ k, rustTrim k ≠ [] → (parse_vault_key k).isSome →
      refCountD (insert_item
        ⟨fun _ _ => true, fun _ => true, fun _ _ => true, fun _ => none, fun _ _ => true⟩
        ⟨[], [], ⟨false, [], [], []⟩⟩
        ⟨("X").toList, ("a.png").toList, ("P").toList⟩ 1).1.ledger k =
        (itemCount (insert_item
          ⟨fun _ _ => true, fun _ => true, fun _ _ => true, fun _ => none, fun _ _ => true⟩
          ⟨[], [], ⟨false, [], [], []⟩⟩
          ⟨("X").toList, ("a.png").toList, ("P").toList⟩ 1).1.items k : Int)) ∧
    (∀ r ∈ (insert_item
        ⟨fun _ _ => true, fun _ => true, fun _ _ => true, fun _ => none, fun _ _ => true⟩
        ⟨[], [], ⟨false, [], [], []⟩⟩
        ⟨("X").toList, ("a.png").toList, ("P").toList⟩ 1).1.ledger, 0 ≤ r.ref_count) :=
  c2_ledger_conservation _
    (Reach.insert (Reach.empty ⟨false, [], [], []⟩)
      ⟨fun _ _ => true, fun _ => true, fun _ _ => true, fun _ => none, fun _ _ => true⟩
      ⟨("X").toList, ("a.png").toList, ("P").toList⟩ 1)

theorem ilookup_map_idfix {items : List Item} {f : Item → Item}
    (hf : ∀ i, (f i).id = i.id) (item_id : RStr) :
    ilookup (items.map f) item_id = (ilookup items item_id).map f := by
  induction items with
  | nil => rfl
  | cons i0 rest ih =>
    by_cases hk : i0.id = item_id
    · unfold ilookup
      rw [List.map_cons, List.find?_cons_of_pos _ (by simp [hf, hk]),
        List.find?_cons_of_pos _ (by simp [hk])]
      rfl
    · unfold ilookup at ih ⊢
      rw [List.map_cons, List.find?_cons_of_neg _ (by simp [hf, hk]),
        List.find?_cons_of_neg _ (by simp [hk])]
      exact ih

/-- C9: `finalize_item_import`'s transaction body for a replace: when the
item exists with a non-empty old key, the new (trimmed) key and path are
non-empty, the new key differs from the old and parses, and the old
key's recorded count is at least 1, the call succeeds and, atomically in
that one transaction, the old key's count drops by exactly 1, the new
key's count grows by 1 (its row is created with count 1 when absent),
and the item row now carries the new key and path. -/
theorem c9_finalize_replace (items : List Item) (ledger : List VRow)
    (item_id vk vp : RStr) (now : Int) (cur : Item)
    (hcur : ilookup items item_id = some cur)
    (hold : rustTrim cur.vault_key ≠ [])
    (hnk : rustTrim vk ≠ []) (hnp : rustTrim vp ≠ [])
    (hne : cur.vault_key ≠ rustTrim vk)
    (hp : (parse_vault_key (rustTrim vk)).isSome)
    (hpos : 1 ≤ refCountD ledger cur.vault_key) :
    ∃ items2 ledger2,
      finalize_item_import_tx items ledger item_id vk vp now = .ok (items2, ledger2) ∧
      refCountD ledger2 cur.vault_key = refCountD ledger cur.vault_key - 1 ∧
      refCountD ledger2 (rustTrim vk) = refCountD ledger (rustTrim vk) + 1 ∧
      (vlookup ledger2 (rustTrim vk)).isSome ∧
      ilookup items2 item_id =
        some { cur with vault_key := rustTrim vk, vault_path := rustTrim vp } := by
  have htrimnk : rustTrim (rustTrim vk) ≠ [] := by rw [rustTrim_idem]; exact hnk
  rcases Option.isSome_iff_exists.mp hp with ⟨q, hq⟩
  obtain ⟨qa, qb⟩ := q
  obtain ⟨L2, hok, hcount, ⟨r2, hv2, _⟩, hothers⟩ :=
    (increment_contract (decrement_vault_ref_in_tx ledger cur.vault_key 1 now).1
      (rustTrim vk) (rustTrim vp) now).2.2 qa qb htrimnk hq
  refine ⟨items.map (fun i => if i.id = item_id then
      { i with vault_key := rustTrim vk, vault_path := rustTrim vp } else i), L2, ?_, ?_, ?_, ?_, ?_⟩
  · unfold finalize_item_import_tx
    rw [hcur]
    dsimp only
    rw [if_neg (by
      rintro (he | he)
      · exact hnk he
      · exact hnp he)]
    rw [if_pos (show rustTrim cur.vault_key ≠ [] ∧ cur.vault_key ≠ rustTrim vk from
      ⟨hold, hne⟩)]
    rw [if_pos (show cur.vault_key ≠ rustTrim vk from hne)]
    rw [hok]
  · rw [refCountD, hothers cur.vault_key hne, ← refCountD,
      decrement_refCountD_self hold]
    omega
  · rw [hcount, decrement_refCountD_other (fun he => hne he.symm)]
  · rw [hv2]
    rfl
  · rw [ilookup_map_idfix (fun i => by by_cases hi : i.id = item_id <;> simp [hi]) item_id,
      hcur]
    simp [ilookup_id hcur]

/-- Witness for `c9_finalize_replace`: replacing the stored file of the
only item moves the count from the old key's row to a fresh row for the
new key. -/
theorem c9_witness :
    ∃ items2 ledger2,
      finalize_item_import_tx [⟨("X").toList, ("a.png").toList, ("P").toList⟩]
          [⟨("a.png").toList, ("P").toList, ("a").toList, ("png").toList, 0, 1, 0, 0⟩]
          (("X").toList) (("b.jpg").toList) (("Q").toList) 7 = .ok (items2, ledger2) ∧
      refCountD ledger2 ("a.png").toList =
        refCountD [⟨("a.png").toList, ("P").toList, ("a").toList, ("png").toList, 0, 1, 0, 0⟩]
          ("a.png").toList - 1 ∧
      refCountD ledger2 (rustTrim ("b.jpg").toList) =
        refCountD [⟨("a.png").toList, ("P").toList, ("a").toList, ("png").toList, 0, 1, 0, 0⟩]
          (rustTrim ("b.jpg").toList) + 1 ∧
      (vlookup ledger2 (rustTrim ("b.jpg").toList)).isSome ∧
      ilookup items2 (("X").toList) =
        some { (⟨("X").toList, ("a.png").toList, ("P").toList⟩ : Item) with
          vault_key := rustTrim ("b.jpg").toList, vault_path := rustTrim ("Q").toList } :=
  c9_finalize_replace [⟨("X").toList, ("a.png").toList, ("P").toList⟩]
    [⟨("a.png").toList, ("P").toList, ("a").toList, ("png").toList, 0, 1, 0, 0⟩]
    (("X").toList) (("b.jpg").toList) (("Q").toList) 7
    ⟨("X").toList, ("a.png").toList, ("P").toList⟩
    (by decide) (by decide) (by decide) (by decide) (by decide) (by decide) (by decide)

/-- C8 counterexample to the claim as stated: the neither-source contract
error is raised only after `import_with_metadata_detailed` has ensured
(created) the storage root and the current month directory, so on a
filesystem without them the rejected call has changed the filesystem. -/
theorem c8_counterexample :
    (import_with_metadata_detailed (fun _ => []) (("B").toList)
        ⟨fun _ _ => true, fun _ => true, fun _ _ => true, fun _ => none, fun _ _ => true⟩
        ⟨false, [], [], []⟩ none none none none).2 =
      .error ("invalid import request: provide either source_path or source_bytes").toList ∧
    (import_with_metadata_detailed (fun _ => []) (("B").toList)
        ⟨fun _ _ => true, fun _ => true, fun _ _ => true, fun _ => none, fun _ _ => true⟩
        ⟨false, [], [], []⟩ none none none none).1 ≠ ⟨false, [], [], []⟩ := by
  exact ⟨rfl, by decide⟩

/-- C8 (corrected): every input-contract error is surfaced verbatim and
leaves blobs, thumbnails and the ledger untouched; the empty-buffer and
invalid-key checks run before any filesystem effect, but the
neither/both-source check runs only after the storage root and current
month directory have been ensured (idempotent `create_dir_all`s), which
is the one deviation from the claim. -/
theorem c8_input_contract_errors :
    (∀ (digest : List Nat → RStr) (bucket : RStr) (o : FsOracle) (fs : Fs)
        (re ofn : Option RStr) (sp : Option PathSource) (sb : Option (List Nat)),
      (sp = none ∧ sb = none) ∨ (sp.isSome ∧ sb.isSome) →
      import_with_metadata_detailed digest bucket o fs sp sb re ofn =
        (ensure_current_month_directory (ensure_storage_root_internal fs) bucket,
          .error ("invalid import request: provide either source_path or source_bytes").toList) ∧
        (ensure_current_month_directory (ensure_storage_root_internal fs) bucket).blobs =
          fs.blobs ∧
        (ensure_current_month_directory (ensure_storage_root_internal fs) bucket).thumbs =
          fs.thumbs) ∧
    (∀ (digest : List Nat → RStr) (bucket : RStr) (o : FsOracle) (fs : Fs)
        (ofn ext : Option RStr) (gt : Bool),
      process_import_bytes_job digest bucket o fs [] ofn ext gt =
        (fs, .error ("cannot import empty byte buffer").toList)) ∧
    (∀ (ledger : List VRow) (k p : RStr) (now : Int),
      rustTrim k ≠ [] → parse_vault_key k = none →
      increment_vault_ref_in_tx ledger k p now =
        .error (("invalid vault key: ").toList ++ k)) := by
  refine ⟨?_, ?_, ?_⟩
  · intro digest bucket o fs re ofn sp sb hcase
    rcases hcase with ⟨rfl, rfl⟩ | ⟨hs, hb⟩
    · exact ⟨rfl, rfl, rfl⟩
    · rcases Option.isSome_iff_exists.mp hs with ⟨p, rfl⟩
      rcases Option.isSome_iff_exists.mp hb with ⟨bytes, rfl⟩
      exact ⟨rfl, rfl, rfl⟩
  · intro digest bucket o fs ofn ext gt
    rfl
  · intro ledger k p now h1 h2
    exact (increment_contract ledger k p now).2.1 h1 h2

/-- Witness for `c8_input_contract_errors` at concrete inputs: the
neither-source call, the empty-buffer job and an unparseable-key
increment each produce their verbatim error. -/
theorem c8_witness :
    (import_with_metadata_detailed (fun _ => []) (("B").toList)
        ⟨fun _ _ => true, fun _ => true, fun _ _ => true, fun _ => none, fun _ _ => true⟩
        ⟨false, [], [], []⟩ none none none none =
      (ensure_current_month_directory (ensure_storage_root_internal ⟨false, [], [], []⟩)
          (("B").toList),
        .error ("invalid import request: provide either source_path or source_bytes").toList) ∧
      (ensure_current_month_directory (ensure_storage_root_internal
        (⟨false, [], [], []⟩ : Fs)) (("B").toList)).blobs = (⟨false, [], [], []⟩ : Fs).blobs ∧
      (ensure_current_month_directory (ensure_storage_root_internal
        (⟨false, [], [], []⟩ : Fs)) (("B").toList)).thumbs =
        (⟨false, [], [], []⟩ : Fs).thumbs) ∧
    process_import_bytes_job (fun _ => []) (("B").toList)
        ⟨fun _ _ => true, fun _ => true, fun _ _ => true, fun _ => none, fun _ _ => true⟩
        ⟨false, [], [], []⟩ [] none none true =
      (⟨false, [], [], []⟩, .error ("cannot import empty byte buffer").toList) ∧
    increment_vault_ref_in_tx [] (("x").toList) (("P").toList) 0 =
      .error (("invalid vault key: ").toList ++ ("x").toList) :=
  ⟨c8_input_contract_errors.1 (fun _ => []) (("B").toList)
      ⟨fun _ _ => true, fun _ => true, fun _ _ => true, fun _ => none, fun _ _ => true⟩
      ⟨false, [], [], []⟩ none none none none (Or.inl ⟨rfl, rfl⟩),
   c8_input_contract_errors.2.1 (fun _ => []) (("B").toList)
      ⟨fun _ _ => true, fun _ => true, fun _ _ => true, fun _ => none, fun _ _ => true⟩
      ⟨false, [], [], []⟩ none none true,
   c8_input_contract_errors.2.2 [] (("x").toList) (("P").toList) 0 (by decide) (by decide)⟩

theorem import_place_fresh (o : FsOracle) (bucket : RStr) (fs : Fs) (sha ext : RStr)
    (content : List Nat) (ofn : RStr) (hroot : fs.rootExists = true)
    (hfind : fs.blobs.filter (fun b => decide (b.filename = build_vault_filename sha ext)) = [])
    (hw : o.writeBlobOk bucket (build_vault_filename sha ext) = true) :
    import_place o bucket fs sha ext content ofn =
      ({ fs with blobs := fs.blobs ++ [⟨bucket, build_vault_filename sha ext, content⟩] },
        .ok ⟨(bucket, build_vault_filename sha ext), sha, ext, content.length, ofn, false⟩) := by
  simp only [import_place, find_existing_vault_file, find_vault_files, hroot, if_true, hfind,
    List.getLast?_nil, hw]

theorem import_place_hit (o : FsOracle) (bucket : RStr) (fs : Fs) (sha ext : RStr)
    (content : List Nat) (ofn : RStr) (b : Blob) (hroot : fs.rootExists = true)
    (hfind : (fs.blobs.filter
        (fun bb => decide (bb.filename = build_vault_filename sha ext))).getLast? = some b) :
    import_place o bucket fs sha ext content ofn =
      (fs, .ok ⟨(b.bucket, b.filename), sha, ext, b.content.length, ofn, true⟩) := by
  simp only [import_place, find_existing_vault_file, find_vault_files, hroot, if_true, hfind]

/-- C5: placing identical content twice (same digest and normalized
extension, whatever the source kinds) yields the same content key and
canonical path both times; the second call reports deduped and writes no
new blob, leaving exactly one on-disk copy for the key. -/
theorem c5_dedupe_idempotent (digest : List Nat → RStr) (bucket : RStr) (o : FsOracle)
    (fs : Fs) (spA spB : Option PathSource) (sbA sbB : Option (List Nat))
    (reA reB ofnA ofnB : Option RStr) (sha ext : RStr) (cA cB : List Nat) (nA nB : RStr)
    (h1 : import_source_key digest spA sbA reA ofnA = .ok (sha, ext, cA, nA))
    (h2 : import_source_key digest spB sbB reB ofnB = .ok (sha, ext, cB, nB))
    (hfind : fs.blobs.filter (fun b => decide (b.filename = build_vault_filename sha ext)) = [])
    (hw : o.writeBlobOk bucket (build_vault_filename sha ext) = true) :
    ∃ fsA rA fsB rB,
      import_with_metadata_detailed digest bucket o fs spA sbA reA ofnA = (fsA, .ok rA) ∧
      import_with_metadata_detailed digest bucket o fsA spB sbB reB ofnB = (fsB, .ok rB) ∧
      rA.sha256 = sha ∧ rA.ext = ext ∧
      rA.vault_path = (bucket, build_vault_filename sha ext) ∧ rA.deduped = false ∧
      rB.sha256 = sha ∧ rB.ext = ext ∧ rB.vault_path = rA.vault_path ∧ rB.deduped = true ∧
      rB.size = cA.length ∧ fsB.blobs = fsA.blobs ∧
      (find_vault_files fsB (build_vault_filename sha ext)).length = 1 := by
  have hA : import_with_metadata_detailed digest bucket o fs spA sbA reA ofnA =
      ({ ensure_current_month_directory (ensure_storage_root_internal fs) bucket with
          blobs := fs.blobs ++ [⟨bucket, build_vault_filename sha ext, cA⟩] },
        .ok ⟨(bucket, build_vault_filename sha ext), sha, ext, cA.length, nA, false⟩) := by
    simp only [import_with_metadata_detailed]
    rw [h1]
    exact import_place_fresh o bucket _ sha ext cA nA rfl hfind hw
  set fsA : Fs :=
    { ensure_current_month_directory (ensure_storage_root_internal fs) bucket with
        blobs := fs.blobs ++ [⟨bucket, build_vault_filename sha ext, cA⟩] } with hfsA
  have hfilter2 :
      ((ensure_current_month_directory (ensure_storage_root_internal fsA) bucket).blobs).filter
        (fun b => decide (b.filename = build_vault_filename sha ext)) =
        [⟨bucket, build_vault_filename sha ext, cA⟩] := by
    show ((fs.blobs ++ [(⟨bucket, build_vault_filename sha ext, cA⟩ : Blob)]).filter
        (fun b => decide (b.filename = build_vault_filename sha ext))) =
      [(⟨bucket, build_vault_filename sha ext, cA⟩ : Blob)]
    rw [List.filter_append, hfind]
    simp
  have hB : import_with_metadata_detailed digest bucket o fsA spB sbB reB ofnB =
      (ensure_current_month_directory (ensure_storage_root_internal fsA) bucket,
        .ok ⟨(bucket, build_vault_filename sha ext), sha, ext, cA.length, nB, true⟩) := by
    simp only [import_with_metadata_detailed]
    rw [h2]
    have := import_place_hit o bucket
      (ensure_current_month_directory (ensure_storage_root_internal fsA) bucket) sha ext cB nB
      ⟨bucket, build_vault_filename sha ext, cA⟩ rfl (by rw [hfilter2]; rfl)
    exact this
  refine ⟨fsA, _, _, _, hA, hB, rfl, rfl, rfl, rfl, rfl, rfl, rfl, rfl, rfl, rfl, ?_⟩
  have hfv : find_vault_files (ensure_current_month_directory (ensure_storage_root_internal fsA)
      bucket) (build_vault_filename sha ext) = [⟨bucket, build_vault_filename sha ext, cA⟩] := by
    have hroot : (ensure_current_month_directory (ensure_storage_root_internal fsA)
        bucket).rootExists = true := rfl
    simp only [find_vault_files, hroot, if_true]
    exact hfilter2
  rw [hfv]
  rfl

/-- Witness for `c5_dedupe_idempotent`: importing the byte buffer `[1]`
with requested extension `png` twice into an empty store dedupes the
second call. -/
theorem c5_witness :
    ∃ fsA rA fsB rB,
      import_with_metadata_detailed (fun _ => ("ab").toList) (("B").toList)
          ⟨fun _ _ => true, fun _ => true, fun _ _ => true, fun _ => none, fun _ _ => true⟩
          ⟨false, [], [], []⟩ none (some [1]) (some ("png").toList) none = (fsA, .ok rA) ∧
      import_with_metadata_detailed (fun _ => ("ab").toList) (("B").toList)
          ⟨fun _ _ => true, fun _ => true, fun _ _ => true, fun _ => none, fun _ _ => true⟩
          fsA none (some [1]) (some ("png").toList) none = (fsB, .ok rB) ∧
      rA.sha256 = ("ab").toList ∧ rA.ext = ("png").toList ∧
      rA.vault_path = (("B").toList, build_vault_filename (("ab").toList) (("png").toList)) ∧
      rA.deduped = false ∧
      rB.sha256 = ("ab").toList ∧ rB.ext = ("png").toList ∧ rB.vault_path = rA.vault_path ∧
      rB.deduped = true ∧ rB.size = [1].length ∧ fsB.blobs = fsA.blobs ∧
      (find_vault_files fsB (build_vault_filename (("ab").toList) (("png").toList))).length
        = 1 :=
  c5_dedupe_idempotent (fun _ => ("ab").toList) (("B").toList)
    ⟨fun _ _ => true, fun _ => true, fun _ _ => true, fun _ => none, fun _ _ => true⟩
    ⟨false, [], [], []⟩ none none (some [1]) (some [1]) (some ("png").toList)
    (some ("png").toList) none none (("ab").toList) (("png").toList) [1] [1]
    (("clipboard-image").toList) (("clipboard-image").toList) rfl rfl rfl rfl

/-- C6: the pipeline fails as a whole exactly when blob placement fails;
after a successful placement of a recognized image extension, a
dimension-read failure, and likewise a thumbnail-generation failure,
yield a successful result with thumb status `error` that still carries
the placement's content key and vault path; and a placement key parses
back to its sha256 and normalized extension. -/
theorem c6_pipeline_resilience :
    (∀ (digest : List Nat → RStr) (bucket : RStr) (o : FsOracle) (fs : Fs)
        (sp : Option PathSource) (sb : Option (List Nat)) (re ofn : Option RStr)
        (gt : Bool) (e : RStr),
      (run_import_pipeline_internal digest bucket o fs sp sb re ofn gt).2 = .error e ↔
        (import_with_metadata_detailed digest bucket o fs sp sb re ofn).2 = .error e) ∧
    (∀ (digest : List Nat → RStr) (bucket : RStr) (o : FsOracle) (fs : Fs)
        (sp : Option PathSource) (sb : Option (List Nat)) (re ofn : Option RStr)
        (gt : Bool) (fs1 : Fs) (c : VaultImportComputation),
      import_with_metadata_detailed digest bucket o fs sp sb re ofn = (fs1, .ok c) →
      is_image_extension c.ext = true →
      o.readDims c.vault_path = none →
      run_import_pipeline_internal digest bucket o fs sp sb re ofn gt =
        (fs1, .ok ⟨c.vault_path, c.sha256, c.ext, c.size, c.original_filename, none, none,
          ("error").toList, none, c.deduped⟩)) ∧
    (∀ (digest : List Nat → RStr) (bucket : RStr) (o : FsOracle) (fs : Fs)
        (sp : Option PathSource) (sb : Option (List Nat)) (re ofn : Option RStr)
        (fs1 : Fs) (c : VaultImportComputation) (w h : Nat) (tf : RStr),
      import_with_metadata_detailed digest bucket o fs sp sb re ofn = (fs1, .ok c) →
      is_image_extension c.ext = true →
      o.readDims c.vault_path = some (w, h) →
      IMPORT_THUMB_MAX_SIZE < max w h →
      thumb_filename_for_vault_key (build_vault_filename c.sha256 c.ext) = .ok tf →
      (fs1.blobs.find? (fun b =>
        decide (b.bucket = c.vault_path.1 ∧ b.filename = c.vault_path.2))).isNone = false →
      tf ∉ fs1.thumbs →
      o.thumbGenOk c.vault_path tf = false →
      run_import_pipeline_internal digest bucket o fs sp sb re ofn true =
        (fs1, .ok ⟨c.vault_path, c.sha256, c.ext, c.size, c.original_filename, some w, some h,
          ("error").toList, none, c.deduped⟩)) ∧
    (∀ c : VaultImportComputation, c.sha256 ≠ [] → '.' ∉ c.sha256 →
      (∀ ch, c.sha256.head? = some ch → rustIsWhitespace ch = false) →
      parse_vault_key (build_vault_filename c.sha256 c.ext) =
        some (c.sha256, normalize_ext c.ext)) := by
  refine ⟨?_, ?_, ?_, ?_⟩
  · intro digest bucket o fs sp sb re ofn gt e
    simp only [run_import_pipeline_internal]
    cases himp : import_with_metadata_detailed digest bucket o fs sp sb re ofn with
    | mk fs1 r =>
      cases r with
      | error e2 => simp
      | ok c => simp
  · intro digest bucket o fs sp sb re ofn gt fs1 c himp himg hdims
    simp only [run_import_pipeline_internal]
    rw [himp]
    simp only [pipeline_after_place, himg, if_true, hdims]
  · intro digest bucket o fs sp sb re ofn fs1 c w h tf himp himg hdims hmax htf hsrc hmem hfail
    have hgen2 : generate_thumbnail_internal o fs1 c.vault_path tf =
        .error ("failed to decode image").toList := by
      simp only [generate_thumbnail_internal, hsrc, hfail, Bool.false_eq_true, if_false]
      rw [if_neg hmem]
    simp only [run_import_pipeline_internal]
    rw [himp]
    simp only [pipeline_after_place, himg, if_true, hdims]
    rw [if_neg (Nat.not_le.mpr hmax)]
    simp only [if_true, htf, hgen2]
  · intro c h1 h2 h3
    exact vault_key_roundtrip c.sha256 c.ext h1 h2 h3

/-- Witness for `c6_pipeline_resilience`: concrete runs where dimension
reading and thumbnail generation fail both still succeed with thumb
status `error`, the error-iff holds at a concrete input, and a concrete
placement key parses back. -/
theorem c6_witness :
    ((run_import_pipeline_internal (fun _ => ("ab").toList) (("B").toList)
        ⟨fun _ _ => true, fun _ => true, fun _ _ => true, fun _ => none, fun _ _ => true⟩
        ⟨false, [], [], []⟩ none (some [1]) (some ("png").toList) none true).2 =
          .error ("x").toList ↔
      (import_with_metadata_detailed (fun _ => ("ab").toList) (("B").toList)
        ⟨fun _ _ => true, fun _ => true, fun _ _ => true, fun _ => none, fun _ _ => true⟩
        ⟨false, [], [], []⟩ none (some [1]) (some ("png").toList) none).2 =
          .error ("x").toList) ∧
    run_import_pipeline_internal (fun _ => ("ab").toList) (("B").toList)
        ⟨fun _ _ => true, fun _ => true, fun _ _ => true, fun _ => none, fun _ _ => true⟩
        ⟨false, [], [], []⟩ none (some [1]) (some ("png").toList) none true =
      (⟨true, [("B").toList], [⟨("B").toList, ("ab.png").toList, [1]⟩], []⟩,
        .ok ⟨((("B").toList), ("ab.png").toList), ("ab").toList, ("png").toList, 1,
          ("clipboard-image").toList, none, none, ("error").toList, none, false⟩) ∧
    run_import_pipeline_internal (fun _ => ("ab").toList) (("B").toList)
        ⟨fun _ _ => true, fun _ => true, fun _ _ => true, fun _ => some (500, 500),
          fun _ _ => false⟩
        ⟨false, [], [], []⟩ none (some [1]) (some ("png").toList) none true =
      (⟨true, [("B").toList], [⟨("B").toList, ("ab.png").toList, [1]⟩], []⟩,
        .ok ⟨((("B").toList), ("ab.png").toList), ("ab").toList, ("png").toList, 1,
          ("clipboard-image").toList, some 500, some 500, ("error").toList, none, false⟩) ∧
    parse_vault_key (build_vault_filename (("ab").toList) (("png").toList)) =
      some (("ab").toList, normalize_ext (("png").toList)) :=
  ⟨c6_pipeline_resilience.1 (fun _ => ("ab").toList) (("B").toList)
      ⟨fun _ _ => true, fun _ => true, fun _ _ => true, fun _ => none, fun _ _ => true⟩
      ⟨false, [], [], []⟩ none (some [1]) (some ("png").toList) none true (("x").toList),
   c6_pipeline_resilience.2.1 (fun _ => ("ab").toList) (("B").toList)
      ⟨fun _ _ => true, fun _ => true, fun _ _ => true, fun _ => none, fun _ _ => true⟩
      ⟨false, [], [], []⟩ none (some [1]) (some ("png").toList) none true
      ⟨true, [("B").toList], [⟨("B").toList, ("ab.png").toList, [1]⟩], []⟩
      ⟨((("B").toList), ("ab.png").toList), ("ab").toList, ("png").toList, 1,
        ("clipboard-image").toList, false⟩ rfl rfl rfl,
   c6_pipeline_resilience.2.2.1 (fun _ => ("ab").toList) (("B").toList)
      ⟨fun _ _ => true, fun _ => true, fun _ _ => true, fun _ => some (500, 500),
        fun _ _ => false⟩
      ⟨false, [], [], []⟩ none (some [1]) (some ("png").toList) none
      ⟨true, [("B").toList], [⟨("B").toList, ("ab.png").toList, [1]⟩], []⟩
      ⟨((("B").toList), ("ab.png").toList), ("ab").toList, ("png").toList, 1,
        ("clipboard-image").toList, false⟩ 500 500 (("ab.png.webp").toList)
      rfl rfl rfl (by decide) rfl rfl (by decide) rfl,
   c6_pipeline_resilience.2.2.2
      ⟨((("B").toList), []), ("ab").toList, ("png").toList, 0, [], false⟩
      (by decide) (by decide)
      (fun ch hch => by
        rw [show ((("ab").toList).head?) = some 'a' from rfl] at hch
        injection hch with hh
        rw [← hh]
        rfl)⟩
